import Mathlib

/-!
Verification of the B-tree node codec, node mutators, splitter and tree engine
of the `kvs` repository (`internal/btree/bnode.go`, `internal/btree/btree.go`).

A Go byte slice is modelled as a `List Nat` whose elements are the byte values
(kept below 256 by the writers).  Go `uint16` arithmetic is modelled with
explicit `% 65536` truncation (`u16`, `sub16`).  A call to `utils.Assert` with
a false condition, which panics in Go, is modelled as an `Except` error; the
loops of `nodeSplit2` are given a fuel argument (larger than the whole
`uint16` range, so running out of fuel corresponds to a Go infinite loop).
Raw byte reads are totalised with default 0 and writes outside the buffer are
dropped (Go would panic there); every theorem below keeps all raw accesses in
bounds, so the totalisation is never exercised.
-/

namespace Kvs

/-- Byte buffers: a Go `[]byte` as a list of byte values. -/
abbrev Bytes := List Nat

/-- Truncation to 16 bits, the result of a Go `uint16` arithmetic expression. -/
def u16 (n : Nat) : Nat := n % 65536

/-- Go `uint16` subtraction `a - b`, wrapping around below zero. -/
def sub16 (a b : Nat) : Nat := (a + 65536 - b % 65536) % 65536

/-- Read `k` bytes little-endian starting at `pos` (out of range reads as 0). -/
def readLE : Bytes → Nat → Nat → Nat
  | _, _, 0 => 0
  | l, pos, k + 1 => l.getD pos 0 + 256 * readLE l (pos + 1) k

/-- Write the `k` low-order bytes of `v` little-endian starting at `pos`. -/
def writeLE : Bytes → Nat → Nat → Nat → Bytes
  | l, _, 0, _ => l
  | l, pos, k + 1, v => writeLE (l.set pos (v % 256)) (pos + 1) k (v / 256)

/-- Model of `binary.LittleEndian.Uint16(node[pos:])`. -/
def readU16 (l : Bytes) (pos : Nat) : Nat := readLE l pos 2

/-- Model of `binary.LittleEndian.PutUint16(node[pos:], v)`. -/
def writeU16 (l : Bytes) (pos : Nat) (v : Nat) : Bytes := writeLE l pos 2 v

/-- Model of Go `copy(l[pos:], src)`: bytes of `src` are written one by one. -/
def copyBytes : Bytes → Nat → Bytes → Bytes
  | l, _, [] => l
  | l, pos, b :: bs => copyBytes (l.set pos b) (pos + 1) bs

/-- Read `n` bytes starting at `pos` as a list. -/
def readRange : Bytes → Nat → Nat → Bytes
  | _, _, 0 => []
  | l, pos, n + 1 => l.getD pos 0 :: readRange l (pos + 1) n

/-- Abnormal termination of the Go code: a `utils.Assert` panic, a slice
bounds panic, or (for the fuelled loops) exhaustion of the fuel. -/
inductive GoErr where
  | assertFailed : GoErr
  | oob : GoErr
  | fuelOut : GoErr
deriving DecidableEq

/-- Computation that may abort the way a Go panic does. -/
abbrev GoM (α : Type) := Except GoErr α

/-- Model of `utils.Assert`: panic when the condition is false. -/
def goAssert (c : Prop) [Decidable c] : GoM Unit :=
  if c then .ok () else .error .assertFailed

/-- Model of the Go slice expression `l[:n]` (panics when `n > len(l)`). -/
def sliceTo (l : Bytes) (n : Nat) : GoM Bytes :=
  if n ≤ l.length then .ok (l.take n) else .error .oob

/-- Constant `BNODE_NODE`: internal nodes with pointers. -/
def BNODE_NODE : Nat := 1

/-- Constant `BNODE_LEAF`: leaf nodes with values. -/
def BNODE_LEAF : Nat := 2

/-- Constant `BTREE_PAGE_SIZE`. -/
def BTREE_PAGE_SIZE : Nat := 4096

/-- Constant `BTREE_MAX_KEY_SIZE`. -/
def BTREE_MAX_KEY_SIZE : Nat := 1000

/-- Constant `BTREE_MAX_VAL_SIZE`. -/
def BTREE_MAX_VAL_SIZE : Nat := 3000

/-- `node.btype()`: the node type, first header field. -/
def btype (node : Bytes) : Nat := readU16 node 0

/-- `node.nkeys()`: the number of keys, second header field. -/
def nkeys (node : Bytes) : Nat := readU16 node 2

/-- `node.setHeader(btype, nkeys)`. -/
def setHeader (node : Bytes) (t k : Nat) : Bytes :=
  writeU16 (writeU16 node 0 t) 2 k

/-- `node.getPtr(idx)`: child pointer number `idx` (asserts `idx < nkeys`). -/
def getPtr (node : Bytes) (idx : Nat) : GoM Nat := do
  goAssert (idx < nkeys node)
  pure (readLE node (u16 (4 + 8 * idx)) 8)

/-- `node.setPtr(idx, val)` (asserts `idx < nkeys`). -/
def setPtr (node : Bytes) (idx val : Nat) : GoM Bytes := do
  goAssert (idx < nkeys node)
  pure (writeLE node (u16 (4 + 8 * idx)) 8 val)

/-- `node.getOffset(idx)`: offset-table entry, 0 for `idx = 0`. -/
def getOffset (node : Bytes) (idx : Nat) : Nat :=
  if idx = 0 then 0
  else readU16 node (u16 (4 + 8 * nkeys node + 2 * sub16 idx 1))

/-- `node.setOffset(idx, val)` (asserts `idx ≤ nkeys`). -/
def setOffset (node : Bytes) (idx val : Nat) : GoM Bytes := do
  goAssert (idx ≤ nkeys node)
  pure (writeU16 node (u16 (4 + 8 * nkeys node + 2 * sub16 idx 1)) val)

/-- `node.kvPos(idx)`: byte position of record `idx` (asserts `idx ≤ nkeys`). -/
def kvPos (node : Bytes) (idx : Nat) : GoM Nat := do
  goAssert (idx ≤ nkeys node)
  pure (u16 (4 + 8 * nkeys node + 2 * nkeys node + getOffset node idx))

/-- `node.getKey(idx)`: the key bytes of record `idx` (asserts `idx < nkeys`). -/
def getKey (node : Bytes) (idx : Nat) : GoM Bytes := do
  goAssert (idx < nkeys node)
  let pos ← kvPos node idx
  let klen := readU16 node pos
  pure ((node.drop (u16 (pos + 4))).take klen)

/-- `node.getVal(idx)`: the value bytes of record `idx` (asserts `idx < nkeys`). -/
def getVal (node : Bytes) (idx : Nat) : GoM Bytes := do
  goAssert (idx < nkeys node)
  let pos ← kvPos node idx
  let klen := readU16 node pos
  let vlen := readU16 node (u16 (pos + 2))
  pure ((node.drop (u16 (pos + 4 + klen))).take vlen)

/-- `node.nbytes()`: occupied size, `kvPos(nkeys)`. -/
def nbytes (node : Bytes) : GoM Nat := kvPos node (nkeys node)

/-- `nodeAppendKV(new, idx, ptr, key, val)`. -/
def nodeAppendKV (new : Bytes) (idx ptr : Nat) (key val : Bytes) : GoM Bytes := do
  let new ← setPtr new idx ptr
  let pos ← kvPos new idx
  let new := writeU16 new pos key.length
  let new := writeU16 new (u16 (pos + 2)) val.length
  let new := copyBytes new (u16 (pos + 4)) key
  let new := copyBytes new (u16 (pos + 4 + u16 key.length)) val
  setOffset new (idx + 1) (u16 (getOffset new idx + 4 + u16 (key.length + val.length)))

/-- `nodeAppendRange(new, old, dstNew, srcOld, n)`: copy `n` consecutive
records of `old` into `new`; the loop is unfolded from its first iteration. -/
def nodeAppendRange (new old : Bytes) (dstNew srcOld n : Nat) : GoM Bytes :=
  match n with
  | 0 => pure new
  | m + 1 => do
    let p ← getPtr old srcOld
    let k ← getKey old srcOld
    let v ← getVal old srcOld
    let new ← nodeAppendKV new dstNew p k v
    nodeAppendRange new old (dstNew + 1) (srcOld + 1) m

/-- `leafInsert(new, old, idx, key, val)`. -/
def leafInsert (new old : Bytes) (idx : Nat) (key val : Bytes) : GoM Bytes := do
  let new := setHeader new BNODE_LEAF (u16 (nkeys old + 1))
  let new ← nodeAppendRange new old 0 0 idx
  let new ← nodeAppendKV new idx 0 key val
  nodeAppendRange new old (idx + 1) idx (sub16 (nkeys old) idx)

/-- `leafUpdate(new, old, idx, key, val)`. -/
def leafUpdate (new old : Bytes) (idx : Nat) (key val : Bytes) : GoM Bytes := do
  let new := setHeader new BNODE_LEAF (nkeys old)
  let new ← nodeAppendRange new old 0 0 idx
  let new ← nodeAppendKV new idx 0 key val
  nodeAppendRange new old (idx + 1) (idx + 1) (sub16 (nkeys old) (idx + 1))

/-- Model of `bytes.Compare`: lexicographic byte comparison. -/
def compareBytes : Bytes → Bytes → Ordering
  | [], [] => .eq
  | [], _ :: _ => .lt
  | _ :: _, [] => .gt
  | a :: as, b :: bs =>
    if a < b then .lt else if b < a then .gt else compareBytes as bs

/-- The binary-search loop of `nodeLookupLE`, including the post-loop
`if hi < nkeys` fallback, which also runs after the `mid == 0` break.  The
fuel argument only bounds the iteration count; the interval `hi + 1 - lo`
shrinks every iteration, so fuel `hi + 2 - lo` can never run out. -/
def lookupLoop (node key : Bytes) : Nat → Nat → Nat → GoM Nat
  | 0, _, _ => .error .fuelOut
  | fuel + 1, lo, hi =>
    if lo ≤ hi then do
      let mid := lo + (hi - lo) / 2
      let kmid ← getKey node mid
      match compareBytes kmid key with
      | .eq => pure mid
      | .lt => lookupLoop node key fuel (mid + 1) hi
      | .gt =>
        if mid = 0 then pure (if hi < nkeys node then hi else 0)
        else lookupLoop node key fuel lo (mid - 1)
    else pure (if hi < nkeys node then hi else 0)

/-- `nodeLookupLE(node, key)`. -/
def nodeLookupLE (node key : Bytes) : GoM Nat := do
  let nk := nkeys node
  if nk = 0 then pure 0
  else lookupLoop node key (nk + 1) 0 (nk - 1)

/-- The closure `left_bytes` of `nodeSplit2` at a given `nleft`. -/
def leftBytes (old : Bytes) (nleft : Nat) : Nat :=
  u16 (4 + 8 * nleft + 2 * nleft + getOffset old nleft)

/-- The closure `right_bytes` of `nodeSplit2` at a given `nleft`.  Note that
the source subtracts `left_bytes()` from `old.nkeys()` (not `old.nbytes()`),
a `uint16` computation that underflows whenever `left_bytes()` exceeds
`nkeys + 4`. -/
def rightBytes (old : Bytes) (nleft : Nat) : Nat :=
  u16 (sub16 (nkeys old) (leftBytes old nleft) + 4)

/-- The first loop of `nodeSplit2`: shrink `nleft` while the left half is too
big.  `nleft--` wraps like a Go `uint16`. -/
def splitLeftLoop (old : Bytes) : Nat → Nat → GoM Nat
  | 0, _ => .error .fuelOut
  | fuel + 1, nleft =>
    if BTREE_PAGE_SIZE < leftBytes old nleft then
      splitLeftLoop old fuel (sub16 nleft 1)
    else pure nleft

/-- The second loop of `nodeSplit2`: grow `nleft` while `right_bytes()` is too
big.  `nleft++` wraps like a Go `uint16`. -/
def splitRightLoop (old : Bytes) : Nat → Nat → GoM Nat
  | 0, _ => .error .fuelOut
  | fuel + 1, nleft =>
    if BTREE_PAGE_SIZE < rightBytes old nleft then
      splitRightLoop old fuel (u16 (nleft + 1))
    else pure nleft

/-- Fuel given to the `nodeSplit2` loops; it exceeds the number of distinct
`uint16` values of `nleft`, so exhausting it means the Go loop cycles. -/
def splitFuel : Nat := 65537

/-- `nodeSplit2(left, right, old)`: split an oversized node into two, with
the source's four `utils.Assert` contract checks. -/
def nodeSplit2 (left right old : Bytes) : GoM (Bytes × Bytes) := do
  goAssert (2 ≤ nkeys old)
  let nleft ← splitLeftLoop old splitFuel (nkeys old / 2)
  goAssert (1 ≤ nleft)
  let nleft ← splitRightLoop old splitFuel nleft
  goAssert (nleft < nkeys old)
  let nright := sub16 (nkeys old) nleft
  let left := setHeader left (btype old) nleft
  let right := setHeader right (btype old) nright
  let left ← nodeAppendRange left old 0 0 nleft
  let right ← nodeAppendRange right old 0 nleft nright
  let rb ← nbytes right
  goAssert (rb ≤ BTREE_PAGE_SIZE)
  pure (left, right)

/-- `nodeSplit3(old)`: split a node into 1 to 3 page-sized nodes; the result
list holds exactly the `nsplit` returned nodes. -/
def nodeSplit3 (old : Bytes) : GoM (Nat × List Bytes) := do
  let ob ← nbytes old
  if ob ≤ BTREE_PAGE_SIZE then
    let old ← sliceTo old BTREE_PAGE_SIZE
    pure (1, [old])
  else
    let left := List.replicate (2 * BTREE_PAGE_SIZE) 0
    let right := List.replicate BTREE_PAGE_SIZE 0
    let lr ← nodeSplit2 left right old
    let lb ← nbytes lr.1
    if lb ≤ BTREE_PAGE_SIZE then
      let l ← sliceTo lr.1 BTREE_PAGE_SIZE
      pure (2, [l, lr.2])
    else
      let leftleft := List.replicate BTREE_PAGE_SIZE 0
      let middle := List.replicate BTREE_PAGE_SIZE 0
      let lm ← nodeSplit2 leftleft middle lr.1
      let llb ← nbytes lm.1
      goAssert (llb ≤ BTREE_PAGE_SIZE)
      pure (3, [lm.1, lm.2, lr.2])

/-- The `BTree` struct: root page number plus the page-store callbacks,
modelled as pure functions. -/
structure BTree where
  root : Nat
  get : Nat → Bytes
  new : Bytes → Nat
  del : Nat → Unit

/-- The `for i, node := range kids` loop of `nodeReplaceKidN`: each kid is
registered with `tree.new` and linked under its own first key. -/
def replaceKidsLoop (tree : BTree) (new : Bytes) (idx : Nat) :
    Nat → List Bytes → GoM Bytes
  | _, [] => pure new
  | i, kid :: rest => do
    let k ← getKey kid 0
    let new ← nodeAppendKV new (u16 (idx + i)) (tree.new kid) k []
    replaceKidsLoop tree new idx (i + 1) rest

/-- `nodeReplaceKidN(tree, new, old, idx, kids...)`. -/
def nodeReplaceKidN (tree : BTree) (new old : Bytes) (idx : Nat)
    (kids : List Bytes) : GoM Bytes := do
  let inc := kids.length
  let new := setHeader new BNODE_NODE (sub16 (u16 (nkeys old + inc)) 1)
  let new ← nodeAppendRange new old 0 0 idx
  let new ← replaceKidsLoop tree new idx 0 kids
  nodeAppendRange new old (u16 (idx + inc)) (idx + 1) (sub16 (nkeys old) (idx + 1))

/-- `treeInsert(tree, node, key, val)`, with fuel bounding the recursion
depth (the Go recursion is bounded by the tree height). -/
def treeInsert (tree : BTree) (key val : Bytes) : Nat → Bytes → GoM Bytes
  | 0, _ => .error .fuelOut
  | fuel + 1, node => do
    let newBuf : Bytes := List.replicate (2 * BTREE_PAGE_SIZE) 0
    let idx ← nodeLookupLE node key
    if btype node = BNODE_LEAF then
      let k ← getKey node idx
      if key = k then leafUpdate newBuf node idx key val
      else leafInsert newBuf node (idx + 1) key val
    else if btype node = BNODE_NODE then do
      let kptr ← getPtr node idx
      let knode ← treeInsert tree key val fuel (tree.get kptr)
      let ns ← nodeSplit3 knode
      let _ := tree.del kptr
      nodeReplaceKidN tree newBuf node idx (ns.2.take ns.1)
    else pure newBuf

/-! ### Byte-buffer lemmas -/

theorem bind_ok_eq {α β : Type} (a : α) (f : α → GoM β) :
    (Except.ok a >>= f : GoM β) = f a := rfl

theorem pure_eq_ok {α : Type} (a : α) : (pure a : GoM α) = .ok a := rfl

theorem goAssert_true {c : Prop} [Decidable c] (h : c) : goAssert c = .ok () := by
  simp [goAssert, h]

instance {α : Type} [DecidableEq α] : DecidableEq (GoM α) := fun a b =>
  match a, b with
  | .ok v, .ok w =>
    if h : v = w then .isTrue (by rw [h]) else .isFalse (by intro hc; cases hc; exact h rfl)
  | .error v, .error w =>
    if h : v = w then .isTrue (by rw [h]) else .isFalse (by intro hc; cases hc; exact h rfl)
  | .ok _, .error _ => .isFalse (by intro hc; cases hc)
  | .error _, .ok _ => .isFalse (by intro hc; cases hc)

theorem u16_eq_of_lt {n : Nat} (h : n < 65536) : u16 n = n := Nat.mod_eq_of_lt h

theorem sub16_eq_sub {a b : Nat} (hba : b ≤ a) (ha : a < 65536) : sub16 a b = a - b := by
  unfold sub16
  rw [Nat.mod_eq_of_lt (Nat.lt_of_le_of_lt hba ha)]
  rw [show a + 65536 - b = (a - b) + 65536 by omega, Nat.add_mod_right]
  exact Nat.mod_eq_of_lt (by omega)

theorem length_writeLE (l : Bytes) (pos k v : Nat) :
    (writeLE l pos k v).length = l.length := by
  induction k generalizing l pos v with
  | zero => rfl
  | succ k ih => rw [writeLE, ih, List.length_set]

theorem length_copyBytes (l : Bytes) (pos : Nat) (src : Bytes) :
    (copyBytes l pos src).length = l.length := by
  induction src generalizing l pos with
  | nil => rfl
  | cons b bs ih => rw [copyBytes, ih, List.length_set]

theorem length_setHeader (l : Bytes) (t k : Nat) :
    (setHeader l t k).length = l.length := by
  rw [setHeader, writeU16, writeU16, length_writeLE, length_writeLE]

theorem getD_set_ne (l : Bytes) {p q : Nat} (v : Nat) (h : p ≠ q) :
    (l.set p v).getD q 0 = l.getD q 0 := by
  rw [List.getD_eq_getElem?_getD, List.getD_eq_getElem?_getD, List.getElem?_set_ne h]

theorem getD_set_self (l : Bytes) {p : Nat} (v : Nat) (h : p < l.length) :
    (l.set p v).getD p 0 = v := by
  rw [List.getD_eq_getElem?_getD, List.getElem?_set_self h]
  rfl

theorem getD_writeLE (l : Bytes) (pos k v q : Nat) (h : q < pos ∨ pos + k ≤ q) :
    (writeLE l pos k v).getD q 0 = l.getD q 0 := by
  induction k generalizing l pos v with
  | zero => rfl
  | succ k ih =>
    rw [writeLE, ih _ _ _ (by omega), getD_set_ne _ _ (by omega)]

theorem getD_copyBytes (l : Bytes) (pos : Nat) (src : Bytes) (q : Nat)
    (h : q < pos ∨ pos + src.length ≤ q) :
    (copyBytes l pos src).getD q 0 = l.getD q 0 := by
  induction src generalizing l pos with
  | nil => rfl
  | cons b bs ih =>
    simp only [List.length_cons] at h
    rw [copyBytes, ih _ _ (by omega), getD_set_ne _ _ (by omega)]

theorem readLE_congr {a b : Bytes} {pos k : Nat}
    (h : ∀ j, j < k → a.getD (pos + j) 0 = b.getD (pos + j) 0) :
    readLE a pos k = readLE b pos k := by
  induction k generalizing pos with
  | zero => rfl
  | succ k ih =>
    have h0 := h 0 (Nat.succ_pos k)
    rw [Nat.add_zero] at h0
    rw [readLE, readLE, h0,
      ih fun j hj => by
        have hx := h (j + 1) (by omega)
        rwa [show pos + (j + 1) = pos + 1 + j by omega] at hx]

theorem readRange_congr {a b : Bytes} {pos n : Nat}
    (h : ∀ j, j < n → a.getD (pos + j) 0 = b.getD (pos + j) 0) :
    readRange a pos n = readRange b pos n := by
  induction n generalizing pos with
  | zero => rfl
  | succ n ih =>
    have h0 := h 0 (Nat.succ_pos n)
    rw [Nat.add_zero] at h0
    rw [readRange, readRange, h0,
      ih fun j hj => by
        have hx := h (j + 1) (by omega)
        rwa [show pos + (j + 1) = pos + 1 + j by omega] at hx]

theorem readLE_writeLE (l : Bytes) (pos k v : Nat) (h : pos + k ≤ l.length) :
    readLE (writeLE l pos k v) pos k = v % 256 ^ k := by
  induction k generalizing l pos v with
  | zero => simp [readLE, writeLE, Nat.mod_one]
  | succ k ih =>
    rw [writeLE, readLE]
    have h1 : (writeLE (l.set pos (v % 256)) (pos + 1) k (v / 256)).getD pos 0 = v % 256 := by
      rw [getD_writeLE _ _ _ _ _ (Or.inl (Nat.lt_succ_self pos)),
        getD_set_self _ _ (by omega)]
    have h2 : readLE (writeLE (l.set pos (v % 256)) (pos + 1) k (v / 256)) (pos + 1) k
        = v / 256 % 256 ^ k := ih _ _ _ (by rw [List.length_set]; omega)
    rw [h1, h2, pow_succ, mul_comm (256 ^ k) 256, Nat.mod_mul]

theorem readRange_copyBytes (l : Bytes) (pos : Nat) (src : Bytes)
    (h : pos + src.length ≤ l.length) :
    readRange (copyBytes l pos src) pos src.length = src := by
  induction src generalizing l pos with
  | nil => rfl
  | cons b bs ih =>
    simp only [List.length_cons] at h ⊢
    rw [copyBytes, readRange]
    congr 1
    · rw [getD_copyBytes _ _ _ _ (Or.inl (Nat.lt_succ_self pos)),
        getD_set_self _ _ (by omega)]
    · exact ih _ _ (by rw [List.length_set]; omega)

theorem getD_eq_getElem (l : Bytes) {p : Nat} (h : p < l.length) :
    l.getD p 0 = l[p] := by
  rw [List.getD_eq_getElem?_getD, List.getElem?_eq_getElem h]
  rfl

theorem drop_take_eq_readRange (l : Bytes) (pos n : Nat) (h : pos + n ≤ l.length) :
    (l.drop pos).take n = readRange l pos n := by
  induction n generalizing pos with
  | zero => simp [readRange]
  | succ n ih =>
    rw [readRange, List.drop_eq_getElem_cons (show pos < l.length by omega),
      List.take_succ_cons, ← ih (pos + 1) (by omega),
      getD_eq_getElem l (show pos < l.length by omega)]

/-! ### The decoded view of a node: a list of (pointer, key, value) records -/

/-- One logical record of a node: child pointer, key bytes, value bytes. -/
structure Entry where
  ptr : Nat
  key : Bytes
  val : Bytes
deriving DecidableEq

/-- Bytes that record an entry occupy in the packed record region:
4 length-prefix bytes plus key plus value. -/
def entrySize (e : Entry) : Nat := 4 + e.key.length + e.val.length

/-- Byte offset (relative to the record region) of the end of record `i - 1`,
that is, the value the offset table stores for index `i`. -/
def offsTo (es : List Entry) (i : Nat) : Nat := ((es.take i).map entrySize).sum

/-- Total occupied bytes of a node whose header count is `K` and whose
records are `es` (used with `K = es.length` for finished nodes). -/
def totalBytesK (K : Nat) (es : List Entry) : Nat :=
  4 + 10 * K + offsTo es es.length

/-- Bounds that the Go `uint16`/`uint64` fields impose on one entry. -/
def entryOk (e : Entry) : Prop :=
  e.ptr < 2 ^ 64 ∧ e.key.length < 65536 ∧ e.val.length < 65536

/-- The declared size ceilings of the repository, plus byte-ness of the
stored data (each stored byte below 256, as Go `byte` guarantees). -/
def entryCeil (e : Entry) : Prop :=
  e.ptr < 2 ^ 64 ∧ e.key.length ≤ BTREE_MAX_KEY_SIZE ∧
    e.val.length ≤ BTREE_MAX_VAL_SIZE

instance (e : Entry) : Decidable (entryCeil e) := by
  unfold entryCeil
  infer_instance

instance (e : Entry) : Decidable (entryOk e) := by
  unfold entryOk
  infer_instance

theorem entryOk_of_ceil {e : Entry} (h : entryCeil e) : entryOk e := by
  obtain ⟨h1, h2, h3⟩ := h
  exact ⟨h1, by simp [BTREE_MAX_KEY_SIZE] at h2; omega,
    by simp [BTREE_MAX_VAL_SIZE] at h3; omega⟩

theorem entrySize_ge (e : Entry) : 4 ≤ entrySize e := by
  unfold entrySize
  omega

theorem offsTo_zero (es : List Entry) : offsTo es 0 = 0 := rfl

theorem offsTo_nil (i : Nat) : offsTo [] i = 0 := by
  simp [offsTo]

theorem offsTo_succ (es : List Entry) (i : Nat) (h : i < es.length) :
    offsTo es (i + 1) = offsTo es i + entrySize es[i] := by
  unfold offsTo
  rw [List.map_take, List.map_take, List.take_succ, List.sum_append,
    List.getElem?_map, List.getElem?_eq_getElem h]
  simp

theorem sum_take_mono (l : List Nat) {i j : Nat} (hij : i ≤ j) :
    (l.take i).sum ≤ (l.take j).sum := by
  induction l generalizing i j with
  | nil => simp
  | cons a l ih =>
    cases i with
    | zero => exact Nat.zero_le _
    | succ i =>
      cases j with
      | zero => omega
      | succ j =>
        rw [List.take_succ_cons, List.take_succ_cons, List.sum_cons, List.sum_cons]
        exact Nat.add_le_add_left (ih (by omega)) a

theorem offsTo_mono (es : List Entry) {i j : Nat} (hij : i ≤ j) :
    offsTo es i ≤ offsTo es j := by
  unfold offsTo
  rw [List.map_take, List.map_take]
  exact sum_take_mono _ hij

theorem offsTo_of_le_length {es : List Entry} {i : Nat} (h : es.length ≤ i) :
    offsTo es i = offsTo es es.length := by
  unfold offsTo
  rw [List.take_of_length_le h, List.take_length]

theorem offsTo_append_of_le {es : List Entry} {fs : List Entry} {i : Nat}
    (h : i ≤ es.length) : offsTo (es ++ fs) i = offsTo es i := by
  unfold offsTo
  rw [List.take_append_of_le_length h]

theorem offsTo_concat (es : List Entry) (e : Entry) :
    offsTo (es ++ [e]) (es.length + 1) = offsTo es es.length + entrySize e := by
  unfold offsTo
  rw [List.take_of_length_le (by simp), List.take_length, List.map_append,
    List.sum_append]
  simp

theorem offsTo_succ_le (es : List Entry) (i : Nat) (h : i < es.length) :
    offsTo es i + entrySize es[i] ≤ offsTo es es.length := by
  rw [← offsTo_succ es i h]
  exact offsTo_mono es (by omega)

/-- Invariant of a node buffer under left-to-right construction: the final
header `(t, K)` is in place, records `es` (with `es.length ≤ K`) have been
appended, and every written field reads back. -/
structure PartialBuild (L K t : Nat) (es : List Entry) (b : Bytes) : Prop where
  hlen : b.length = L
  hty : readU16 b 0 = t
  hnk : readU16 b 2 = K
  hcount : es.length ≤ K
  hptr : ∀ i, (h : i < es.length) → readLE b (4 + 8 * i) 8 = es[i].ptr
  hoff : ∀ i, 1 ≤ i → i ≤ es.length →
    readU16 b (4 + 8 * K + 2 * (i - 1)) = offsTo es i
  hklen : ∀ i, (h : i < es.length) →
    readU16 b (4 + 10 * K + offsTo es i) = es[i].key.length
  hvlen : ∀ i, (h : i < es.length) →
    readU16 b (4 + 10 * K + offsTo es i + 2) = es[i].val.length
  hkey : ∀ i, (h : i < es.length) →
    readRange b (4 + 10 * K + offsTo es i + 4) es[i].key.length = es[i].key
  hval : ∀ i, (h : i < es.length) →
    readRange b (4 + 10 * K + offsTo es i + 4 + es[i].key.length)
      es[i].val.length = es[i].val

/-- The decoded contract of a finished node: header fields and the monadic
accessors return exactly the recorded entries. -/
structure Decodes (node : Bytes) (t : Nat) (es : List Entry) : Prop where
  hty : btype node = t
  hnk : nkeys node = es.length
  hptr : ∀ i, (h : i < es.length) → getPtr node i = .ok es[i].ptr
  hkey : ∀ i, (h : i < es.length) → getKey node i = .ok es[i].key
  hval : ∀ i, (h : i < es.length) → getVal node i = .ok es[i].val
  hoff : ∀ i, i ≤ es.length → getOffset node i = offsTo es i

/-! ### Success characterisations of the monadic codec operations -/

theorem setPtr_ok {node : Bytes} {idx v : Nat} (h : idx < nkeys node)
    (h2 : 4 + 8 * idx < 65536) :
    setPtr node idx v = .ok (writeLE node (4 + 8 * idx) 8 v) := by
  unfold setPtr
  rw [goAssert_true h, bind_ok_eq, pure_eq_ok, u16_eq_of_lt h2]

theorem getPtr_ok {node : Bytes} {idx : Nat} (h : idx < nkeys node)
    (h2 : 4 + 8 * idx < 65536) :
    getPtr node idx = .ok (readLE node (4 + 8 * idx) 8) := by
  unfold getPtr
  rw [goAssert_true h, bind_ok_eq, pure_eq_ok, u16_eq_of_lt h2]

theorem kvPos_ok {node : Bytes} {idx : Nat} (h : idx ≤ nkeys node) :
    kvPos node idx =
      .ok (u16 (4 + 8 * nkeys node + 2 * nkeys node + getOffset node idx)) := by
  unfold kvPos
  rw [goAssert_true h, bind_ok_eq, pure_eq_ok]

theorem setOffset_ok {node : Bytes} {idx v : Nat} (h : idx ≤ nkeys node) :
    setOffset node idx v =
      .ok (writeU16 node (u16 (4 + 8 * nkeys node + 2 * sub16 idx 1)) v) := by
  unfold setOffset
  rw [goAssert_true h, bind_ok_eq, pure_eq_ok]

theorem getKey_ok {node : Bytes} {idx : Nat} (h : idx < nkeys node) :
    getKey node idx =
      (let pos := u16 (4 + 8 * nkeys node + 2 * nkeys node + getOffset node idx)
       .ok ((node.drop (u16 (pos + 4))).take (readU16 node pos))) := by
  unfold getKey
  rw [goAssert_true h, bind_ok_eq, kvPos_ok (by omega), bind_ok_eq, pure_eq_ok]

theorem getVal_ok {node : Bytes} {idx : Nat} (h : idx < nkeys node) :
    getVal node idx =
      (let pos := u16 (4 + 8 * nkeys node + 2 * nkeys node + getOffset node idx)
       .ok ((node.drop (u16 (pos + 4 + readU16 node pos))).take
         (readU16 node (u16 (pos + 2))))) := by
  unfold getVal
  rw [goAssert_true h, bind_ok_eq, kvPos_ok (by omega), bind_ok_eq, pure_eq_ok]

theorem nbytes_ok (node : Bytes) :
    nbytes node =
      .ok (u16 (4 + 8 * nkeys node + 2 * nkeys node + getOffset node (nkeys node))) := by
  unfold nbytes
  exact kvPos_ok (Nat.le_refl _)

theorem nkeys_writeLE_high (node : Bytes) {pos : Nat} (k v : Nat) (h : 4 ≤ pos) :
    nkeys (writeLE node pos k v) = nkeys node :=
  readLE_congr fun j hj => getD_writeLE _ _ _ _ _ (by omega)

theorem nodeAppendKV_ok {node : Bytes} {idx ptr : Nat} {key val : Bytes}
    (h1 : idx < nkeys node) (h2 : 4 + 8 * idx < 65536) :
    nodeAppendKV node idx ptr key val =
      (let b1 := writeLE node (4 + 8 * idx) 8 ptr
       let pos := u16 (4 + 8 * nkeys b1 + 2 * nkeys b1 + getOffset b1 idx)
       let b2 := writeU16 b1 pos key.length
       let b3 := writeU16 b2 (u16 (pos + 2)) val.length
       let b4 := copyBytes b3 (u16 (pos + 4)) key
       let b5 := copyBytes b4 (u16 (pos + 4 + u16 key.length)) val
       setOffset b5 (idx + 1)
         (u16 (getOffset b5 idx + 4 + u16 (key.length + val.length)))) := by
  have hnk1 : nkeys (writeLE node (4 + 8 * idx) 8 ptr) = nkeys node :=
    nkeys_writeLE_high node 8 ptr (by omega)
  unfold nodeAppendKV
  rw [setPtr_ok h1 h2, bind_ok_eq, kvPos_ok (by rw [hnk1]; omega), bind_ok_eq]

theorem readU16_writeU16 (l : Bytes) (pos v : Nat) (h : pos + 2 ≤ l.length) :
    readU16 (writeU16 l pos v) pos = v % 65536 := by
  unfold readU16 writeU16
  rw [readLE_writeLE _ _ _ _ h]
  norm_num

theorem getOffset_congr {c d : Bytes} (K : Nat) (hc : nkeys c = K)
    (hd : nkeys d = K) {i : Nat} (hi65 : i < 65536)
    (hpos : 4 + 8 * K + 2 * (i - 1) < 65536)
    (hagree : ∀ j, j < 2 → c.getD (4 + 8 * K + 2 * (i - 1) + j) 0
      = d.getD (4 + 8 * K + 2 * (i - 1) + j) 0) :
    getOffset c i = getOffset d i := by
  unfold getOffset
  by_cases h0 : i = 0
  · rw [if_pos h0, if_pos h0]
  · rw [if_neg h0, if_neg h0, hc, hd,
      show sub16 i 1 = i - 1 from sub16_eq_sub (by omega) hi65,
      u16_eq_of_lt hpos]
    exact readLE_congr hagree

/-- Appending one record with `nodeAppendKV` preserves the construction
invariant: the record lands after the existing ones and every previously
written field is untouched. -/
theorem nodeAppendKV_build {L K t : Nat} {es : List Entry} {b : Bytes}
    {e : Entry} (hpb : PartialBuild L K t es b) (hlt : es.length < K)
    (he : entryOk e)
    (hfit : 4 + 10 * K + offsTo es es.length + entrySize e ≤ L)
    (hsz : 4 + 10 * K + offsTo es es.length + entrySize e < 65536) :
    ∃ c, nodeAppendKV b es.length e.ptr e.key e.val = .ok c ∧
      PartialBuild L K t (es ++ [e]) c := by
  obtain ⟨heptr, hekl, hevl⟩ := he
  have hes : entrySize e = 4 + e.key.length + e.val.length := rfl
  have hK : 4 + 10 * K < 65536 := by
    have := entrySize_ge e
    omega
  have hcount : es.length ≤ K := hpb.hcount
  have hlenb : b.length = L := hpb.hlen
  have hnkb : nkeys b = K := hpb.hnk
  set n := es.length with hn
  set P : Nat := 4 + 10 * K + offsTo es n with hP
  have hPL : P + entrySize e ≤ L := hfit
  have hP65 : P + entrySize e < 65536 := hsz
  -- the six intermediate buffers
  set b1 : Bytes := writeLE b (4 + 8 * n) 8 e.ptr with hb1
  have hlen1 : b1.length = L := by rw [hb1, length_writeLE, hlenb]
  have hfr1 : ∀ q, q < 4 + 8 * n ∨ 4 + 8 * n + 8 ≤ q →
      b1.getD q 0 = b.getD q 0 := by
    intro q h
    rw [hb1]
    exact getD_writeLE _ _ _ _ _ h
  have hnk1 : nkeys b1 = K := by
    rw [hb1, nkeys_writeLE_high _ _ _ (by omega), hnkb]
  have hoffb : ∀ i, i ≤ n → getOffset b i = offsTo es i := by
    intro i hi
    unfold getOffset
    by_cases h0 : i = 0
    · rw [if_pos h0, h0, offsTo_zero]
    · rw [if_neg h0, hnkb,
        show sub16 i 1 = i - 1 from sub16_eq_sub (by omega) (by omega),
        u16_eq_of_lt (by omega)]
      exact hpb.hoff i (by omega) hi
  have hoff1 : ∀ i, i ≤ n → getOffset b1 i = offsTo es i := by
    intro i hi
    rw [getOffset_congr K hnk1 hnkb (by omega) (by omega)
      fun j hj => hfr1 _ (by omega)]
    exact hoffb i hi
  have hpos : u16 (4 + 8 * nkeys b1 + 2 * nkeys b1 + getOffset b1 n) = P := by
    rw [hnk1, hoff1 n (Nat.le_refl n), u16_eq_of_lt (by omega)]
    omega
  set b2 : Bytes := writeU16 b1 P e.key.length with hb2
  set b3 : Bytes := writeU16 b2 (P + 2) e.val.length with hb3
  set b4 : Bytes := copyBytes b3 (P + 4) e.key with hb4
  set b5 : Bytes := copyBytes b4 (P + 4 + e.key.length) e.val with hb5
  have hlen5 : b5.length = L := by
    rw [hb5, hb4, hb3, hb2, length_copyBytes, length_copyBytes, writeU16,
      writeU16, length_writeLE, length_writeLE, hlen1]
  have hfrR : ∀ q, q < P ∨ P + entrySize e ≤ q → b5.getD q 0 = b1.getD q 0 := by
    intro q h
    rw [hb5, hb4, hb3, hb2, writeU16, writeU16,
      getD_copyBytes _ _ _ _ (by omega), getD_copyBytes _ _ _ _ (by omega),
      getD_writeLE _ _ _ _ _ (by omega), getD_writeLE _ _ _ _ _ (by omega)]
  have hnk5 : nkeys b5 = K := by
    rw [show nkeys b5 = nkeys b1 from readLE_congr fun j hj => hfrR _ (by omega),
      hnk1]
  have hoff5 : ∀ i, i ≤ n → getOffset b5 i = offsTo es i := by
    intro i hi
    rw [getOffset_congr K hnk5 hnk1 (by omega) (by omega)
      fun j hj => hfrR _ (by omega)]
    exact hoff1 i hi
  set b6 : Bytes := writeU16 b5 (4 + 8 * K + 2 * n)
    (offsTo es n + entrySize e) with hb6
  have hlen6 : b6.length = L := by
    rw [hb6, writeU16, length_writeLE, hlen5]
  have hfr6 : ∀ q, q < 4 + 8 * K + 2 * n ∨ 4 + 8 * K + 2 * n + 2 ≤ q →
      b6.getD q 0 = b5.getD q 0 := by
    intro q h
    rw [hb6, writeU16]
    exact getD_writeLE _ _ _ _ _ h
  -- the monadic computation succeeds and produces b6
  have happ : nodeAppendKV b n e.ptr e.key e.val = .ok b6 := by
    rw [nodeAppendKV_ok (by rw [hnkb]; omega) (by omega)]
    simp only [← hb1, hpos, u16_eq_of_lt (show P + 2 < 65536 by omega),
      u16_eq_of_lt (show e.key.length < 65536 from hekl),
      u16_eq_of_lt (show P + 4 < 65536 by omega),
      u16_eq_of_lt (show P + 4 + e.key.length < 65536 by omega),
      ← hb2, ← hb3, ← hb4, ← hb5]
    rw [setOffset_ok (by rw [hnk5]; omega)]
    rw [hnk5, show sub16 (n + 1) 1 = n from sub16_eq_sub (by omega) (by omega),
      u16_eq_of_lt (show 4 + 8 * K + 2 * n < 65536 by omega),
      hoff5 n (Nat.le_refl n),
      u16_eq_of_lt (show e.key.length + e.val.length < 65536 by omega),
      u16_eq_of_lt (show offsTo es n + 4 + (e.key.length + e.val.length)
        < 65536 by omega),
      show offsTo es n + 4 + (e.key.length + e.val.length)
        = offsTo es n + entrySize e by omega,
      ← hb6]
  refine ⟨b6, happ, ?_⟩
  -- full frame: unwritten positions agree with b
  have hfull : ∀ q, (q < 4 + 8 * n ∨ 4 + 8 * n + 8 ≤ q) →
      (q < 4 + 8 * K + 2 * n ∨ 4 + 8 * K + 2 * n + 2 ≤ q) →
      (q < P ∨ P + entrySize e ≤ q) → b6.getD q 0 = b.getD q 0 := by
    intro q h1 h2 h3
    rw [hfr6 q h2, hfrR q h3, hfr1 q h1]
  -- read-backs of the freshly written record
  have hb256 : (256 : Nat) ^ 8 = 2 ^ 64 := by norm_num
  have hptr6 : readLE b6 (4 + 8 * n) 8 = e.ptr := by
    rw [show readLE b6 (4 + 8 * n) 8 = readLE b1 (4 + 8 * n) 8 from
        readLE_congr fun j hj => by
          rw [hfr6 _ (by omega), hfrR _ (by omega)],
      hb1, readLE_writeLE _ _ _ _ (by omega), hb256]
    exact Nat.mod_eq_of_lt heptr
  have hklen6 : readU16 b6 P = e.key.length := by
    rw [show readU16 b6 P = readU16 b2 P from readLE_congr fun j hj => by
        rw [hfr6 _ (by omega), hb5, hb4, hb3, writeU16,
          getD_copyBytes _ _ _ _ (by omega), getD_copyBytes _ _ _ _ (by omega),
          getD_writeLE _ _ _ _ _ (by omega)],
      hb2, readU16_writeU16 _ _ _ (by rw [hlen1]; omega)]
    exact Nat.mod_eq_of_lt hekl
  have hvlen6 : readU16 b6 (P + 2) = e.val.length := by
    rw [show readU16 b6 (P + 2) = readU16 b3 (P + 2) from
        readLE_congr fun j hj => by
          rw [hfr6 _ (by omega), hb5, hb4,
            getD_copyBytes _ _ _ _ (by omega),
            getD_copyBytes _ _ _ _ (by omega)],
      hb3, readU16_writeU16 _ _ _ (by rw [hb2, writeU16, length_writeLE, hlen1]; omega)]
    exact Nat.mod_eq_of_lt hevl
  have hkey6 : readRange b6 (P + 4) e.key.length = e.key := by
    rw [show readRange b6 (P + 4) e.key.length
          = readRange b4 (P + 4) e.key.length from
        readRange_congr fun j hj => by
          rw [hfr6 _ (by omega), hb5, getD_copyBytes _ _ _ _ (by omega)],
      hb4]
    exact readRange_copyBytes _ _ _ (by
      rw [hb3, hb2, writeU16, writeU16, length_writeLE, length_writeLE, hlen1]
      omega)
  have hval6 : readRange b6 (P + 4 + e.key.length) e.val.length = e.val := by
    rw [show readRange b6 (P + 4 + e.key.length) e.val.length
          = readRange b5 (P + 4 + e.key.length) e.val.length from
        readRange_congr fun j hj => hfr6 _ (by omega),
      hb5]
    exact readRange_copyBytes _ _ _ (by
      rw [hb4, hb3, hb2, writeU16, writeU16, length_copyBytes, length_writeLE,
        length_writeLE, hlen1]
      omega)
  have hoffnew : readU16 b6 (4 + 8 * K + 2 * n) = offsTo es n + entrySize e := by
    rw [hb6, readU16_writeU16 _ _ _ (by rw [hlen5]; omega)]
    exact Nat.mod_eq_of_lt (by omega)
  -- sizes of entries already in place stay below the new record
  have hrecbound : ∀ i, (h : i < n) →
      offsTo es i + entrySize es[i] ≤ offsTo es n := fun i h =>
    offsTo_succ_le es i h
  refine ⟨hlen6, ?_, ?_, by simp [hn]; omega, ?_, ?_, ?_, ?_, ?_, ?_⟩
  · rw [show readU16 b6 0 = readU16 b 0 from readLE_congr fun j hj =>
      hfull _ (by omega) (by omega) (by omega)]
    exact hpb.hty
  · rw [show readU16 b6 2 = readU16 b 2 from readLE_congr fun j hj =>
      hfull _ (by omega) (by omega) (by omega)]
    exact hpb.hnk
  · -- pointers
    intro i hi
    simp only [List.length_append, List.length_cons, List.length_nil] at hi
    by_cases hin : i < n
    · rw [List.getElem_append_left (by omega),
        show readLE b6 (4 + 8 * i) 8 = readLE b (4 + 8 * i) 8 from
          readLE_congr fun j hj =>
            hfull _ (by omega) (by omega) (by omega)]
      exact hpb.hptr i (by omega)
    · have hieq : i = n := by omega
      subst hieq
      rw [List.getElem_concat_length _ _ _ rfl]
      exact hptr6
  · -- offsets
    intro i h1 h2
    simp only [List.length_append, List.length_cons, List.length_nil] at h2
    by_cases hin : i ≤ n
    · rw [offsTo_append_of_le hin,
        show readU16 b6 (4 + 8 * K + 2 * (i - 1))
            = readU16 b (4 + 8 * K + 2 * (i - 1)) from
          readLE_congr fun j hj =>
            hfull _ (by omega) (by omega) (by omega)]
      exact hpb.hoff i h1 hin
    · have hieq : i = n + 1 := by omega
      subst hieq
      rw [show n + 1 - 1 = n by omega, hoffnew, hn, offsTo_concat]
  · -- key lengths
    intro i hi
    simp only [List.length_append, List.length_cons, List.length_nil] at hi
    by_cases hin : i < n
    · rw [List.getElem_append_left (by omega), offsTo_append_of_le (by omega),
        show readU16 b6 (4 + 10 * K + offsTo es i)
            = readU16 b (4 + 10 * K + offsTo es i) from
          readLE_congr fun j hj => by
            have hb := hrecbound i hin
            have h4 := entrySize_ge es[i]
            exact hfull _ (by omega) (by omega) (by omega)]
      exact hpb.hklen i (by omega)
    · have hieq : i = n := by omega
      subst hieq
      rw [List.getElem_concat_length _ _ _ rfl, offsTo_append_of_le (by omega)]
      exact hklen6
  · -- value lengths
    intro i hi
    simp only [List.length_append, List.length_cons, List.length_nil] at hi
    by_cases hin : i < n
    · rw [List.getElem_append_left (by omega), offsTo_append_of_le (by omega),
        show readU16 b6 (4 + 10 * K + offsTo es i + 2)
            = readU16 b (4 + 10 * K + offsTo es i + 2) from
          readLE_congr fun j hj => by
            have hb := hrecbound i hin
            have h4 := entrySize_ge es[i]
            exact hfull _ (by omega) (by omega) (by omega)]
      exact hpb.hvlen i (by omega)
    · have hieq : i = n := by omega
      subst hieq
      rw [List.getElem_concat_length _ _ _ rfl, offsTo_append_of_le (by omega)]
      exact hvlen6
  · -- keys
    intro i hi
    simp only [List.length_append, List.length_cons, List.length_nil] at hi
    by_cases hin : i < n
    · rw [List.getElem_append_left (by omega), offsTo_append_of_le (by omega),
        show readRange b6 (4 + 10 * K + offsTo es i + 4) es[i].key.length
            = readRange b (4 + 10 * K + offsTo es i + 4) es[i].key.length from
          readRange_congr fun j hj => by
            have hb := hrecbound i hin
            have h4 : entrySize es[i] = 4 + es[i].key.length
                + es[i].val.length := rfl
            exact hfull _ (by omega) (by omega) (by omega)]
      exact hpb.hkey i (by omega)
    · have hieq : i = n := by omega
      subst hieq
      rw [List.getElem_concat_length _ _ _ rfl, offsTo_append_of_le (by omega)]
      exact hkey6
  · -- values
    intro i hi
    simp only [List.length_append, List.length_cons, List.length_nil] at hi
    by_cases hin : i < n
    · rw [List.getElem_append_left (by omega), offsTo_append_of_le (by omega),
        show readRange b6 (4 + 10 * K + offsTo es i + 4 + es[i].key.length)
              es[i].val.length
            = readRange b (4 + 10 * K + offsTo es i + 4 + es[i].key.length)
              es[i].val.length from
          readRange_congr fun j hj => by
            have hb := hrecbound i hin
            have h4 : entrySize es[i] = 4 + es[i].key.length
                + es[i].val.length := rfl
            exact hfull _ (by omega) (by omega) (by omega)]
      exact hpb.hval i (by omega)
    · have hieq : i = n := by omega
      subst hieq
      rw [List.getElem_concat_length _ _ _ rfl, offsTo_append_of_le (by omega)]
      exact hval6


/-- The entries `old[src], …, old[src+n-1]` that `nodeAppendRange` copies. -/
def sliceEs (es : List Entry) (src n : Nat) : List Entry := (es.drop src).take n

theorem sliceEs_zero (es : List Entry) (src : Nat) : sliceEs es src 0 = [] := rfl

theorem sliceEs_cons {es : List Entry} {src : Nat} (m : Nat)
    (h : src < es.length) :
    sliceEs es src (m + 1) = es[src] :: sliceEs es (src + 1) m := by
  unfold sliceEs
  rw [List.drop_eq_getElem_cons h, List.take_succ_cons]

theorem offsTo_append_full (xs ys : List Entry) :
    offsTo (xs ++ ys) (xs.length + ys.length)
      = offsTo xs xs.length + (ys.map entrySize).sum := by
  unfold offsTo
  rw [List.take_of_length_le (by simp), List.take_length, List.map_append,
    List.sum_append]

/-- Copying a record range of a decoded node preserves the construction
invariant, appending exactly the copied entries. -/
theorem nodeAppendRange_build {L K t told : Nat} {esOld : List Entry}
    {old : Bytes} (hold : Decodes old told esOld)
    (heok : ∀ e ∈ esOld, entryOk e) :
    ∀ (n : Nat) (src : Nat) (es : List Entry) (b : Bytes),
    PartialBuild L K t es b →
    src + n ≤ esOld.length →
    es.length + n ≤ K →
    4 + 10 * K + offsTo es es.length
      + ((sliceEs esOld src n).map entrySize).sum ≤ L →
    4 + 10 * K + offsTo es es.length
      + ((sliceEs esOld src n).map entrySize).sum < 65536 →
    ∃ c, nodeAppendRange b old es.length src n = .ok c ∧
      PartialBuild L K t (es ++ sliceEs esOld src n) c := by
  intro n
  induction n with
  | zero =>
    intro src es b hpb hsrc hlt hfit hsz
    exact ⟨b, rfl, by simpa [sliceEs_zero] using hpb⟩
  | succ m ih =>
    intro src es b hpb hsrc hlt hfit hsz
    have hsrclt : src < esOld.length := by omega
    rw [sliceEs_cons m hsrclt, List.map_cons, List.sum_cons] at hfit hsz
    have hek : entryOk esOld[src] := heok _ (List.getElem_mem hsrclt)
    obtain ⟨c1, happ1, hpb1⟩ := nodeAppendKV_build hpb (by omega) hek
      (by omega) (by omega)
    have hstep : nodeAppendRange b old es.length src (m + 1)
        = nodeAppendRange c1 old (es.length + 1) (src + 1) m := by
      show (do
        let p ← getPtr old src
        let k ← getKey old src
        let v ← getVal old src
        let c ← nodeAppendKV b es.length p k v
        nodeAppendRange c old (es.length + 1) (src + 1) m) = _
      rw [hold.hptr src hsrclt, bind_ok_eq, hold.hkey src hsrclt, bind_ok_eq,
        hold.hval src hsrclt, bind_ok_eq, happ1, bind_ok_eq]
    obtain ⟨c, happ2, hpb2⟩ := ih (src + 1) (es ++ [esOld[src]]) c1 hpb1
      (by omega) (by simp; omega)
      (by rw [List.length_append, List.length_cons, List.length_nil,
            offsTo_concat]
          unfold entrySize at *
          omega)
      (by rw [List.length_append, List.length_cons, List.length_nil,
            offsTo_concat]
          unfold entrySize at *
          omega)
    refine ⟨c, ?_, ?_⟩
    · rw [hstep]
      rw [show (es ++ [esOld[src]]).length = es.length + 1 by simp] at happ2
      exact happ2
    · rw [sliceEs_cons m hsrclt]
      rw [List.append_assoc] at hpb2
      simpa using hpb2

/-- A node built to completion decodes to its entry list. -/
theorem partialBuild_decodes {L K t : Nat} {es : List Entry} {b : Bytes}
    (hpb : PartialBuild L K t es b) (hKlen : es.length = K)
    (hfit : 4 + 10 * K + offsTo es es.length ≤ L)
    (hsz : 4 + 10 * K + offsTo es es.length < 65536)
    (heok : ∀ e ∈ es, entryOk e) :
    Decodes b t es := by
  have hnkb : nkeys b = es.length := by
    show readU16 b 2 = es.length
    rw [hpb.hnk, hKlen]
  have hoffb : ∀ i, i ≤ es.length → getOffset b i = offsTo es i := by
    intro i hi
    unfold getOffset
    by_cases h0 : i = 0
    · rw [if_pos h0, h0, offsTo_zero]
    · rw [if_neg h0, hnkb, hKlen,
        show sub16 i 1 = i - 1 from sub16_eq_sub (by omega) (by omega),
        u16_eq_of_lt (by omega)]
      exact hpb.hoff i (by omega) hi
  have hmono : ∀ i, (h : i < es.length) →
      offsTo es i + entrySize es[i] ≤ offsTo es es.length := fun i h =>
    offsTo_succ_le es i h
  refine ⟨hpb.hty, hnkb, ?_, ?_, ?_, hoffb⟩
  · intro i hi
    rw [getPtr_ok (by omega) (by omega), hpb.hptr i hi]
  · intro i hi
    have h4 : entrySize es[i] = 4 + es[i].key.length + es[i].val.length := rfl
    have hm := hmono i hi
    rw [getKey_ok (by omega)]
    simp only [hnkb, hKlen, hoffb i (by omega)]
    have hposv : u16 (4 + 8 * K + 2 * K + offsTo es i)
        = 4 + 10 * K + offsTo es i := by
      rw [u16_eq_of_lt (by omega)]
      omega
    rw [hposv, hpb.hklen i hi,
      u16_eq_of_lt (show 4 + 10 * K + offsTo es i + 4 < 65536 by omega),
      drop_take_eq_readRange _ _ _ (by rw [hpb.hlen]; omega),
      hpb.hkey i hi]
  · intro i hi
    have h4 : entrySize es[i] = 4 + es[i].key.length + es[i].val.length := rfl
    have hm := hmono i hi
    rw [getVal_ok (by omega)]
    simp only [hnkb, hKlen, hoffb i (by omega)]
    have hposv : u16 (4 + 8 * K + 2 * K + offsTo es i)
        = 4 + 10 * K + offsTo es i := by
      rw [u16_eq_of_lt (by omega)]
      omega
    rw [hposv, hpb.hklen i hi,
      u16_eq_of_lt (show 4 + 10 * K + offsTo es i + 2 < 65536 by omega),
      hpb.hvlen i hi,
      u16_eq_of_lt (show 4 + 10 * K + offsTo es i + 4 + es[i].key.length
        < 65536 by omega),
      drop_take_eq_readRange _ _ _ (by rw [hpb.hlen]; omega),
      hpb.hval i hi]

/-- `nbytes` of a decoded node is its total occupied size. -/
theorem decodes_nbytes {node : Bytes} {t : Nat} {es : List Entry}
    (hd : Decodes node t es)
    (hsz : 4 + 10 * es.length + offsTo es es.length < 65536) :
    nbytes node = .ok (totalBytesK es.length es) := by
  rw [nbytes_ok, hd.hnk, hd.hoff es.length (Nat.le_refl _),
    u16_eq_of_lt (by omega)]
  unfold totalBytesK
  congr 1
  omega

theorem offsTo_full (xs : List Entry) :
    offsTo xs xs.length = (xs.map entrySize).sum := by
  unfold offsTo
  rw [List.take_length]

theorem length_take_of_le {l : List Entry} {n : Nat} (h : n ≤ l.length) :
    (l.take n).length = n := by
  rw [List.length_take]
  exact min_eq_left h

theorem sliceEs_from_zero (es : List Entry) (n : Nat) :
    sliceEs es 0 n = es.take n := by
  unfold sliceEs
  rw [List.drop_zero]

theorem sliceEs_all (es : List Entry) (src : Nat) :
    sliceEs es src (es.length - src) = es.drop src := by
  unfold sliceEs
  exact List.take_of_length_le (by rw [List.length_drop])

/-- Setting the final header on any fresh buffer starts the construction
invariant with no entries. -/
theorem partialBuild_setHeader {L t K : Nat} {buf : Bytes}
    (hL : buf.length = L) (h4 : 4 ≤ L) (ht : t < 65536) (hK : K < 65536) :
    PartialBuild L K t [] (setHeader buf t K) := by
  have hlen : (setHeader buf t K).length = L := by
    rw [length_setHeader, hL]
  refine ⟨hlen, ?_, ?_, Nat.zero_le K, ?_, ?_, ?_, ?_, ?_, ?_⟩
  · show readU16 (writeU16 (writeU16 buf 0 t) 2 K) 0 = t
    rw [show readU16 (writeU16 (writeU16 buf 0 t) 2 K) 0
          = readU16 (writeU16 buf 0 t) 0 from
        readLE_congr fun j hj => by
          unfold writeU16
          exact getD_writeLE _ _ _ _ _ (by omega),
      readU16_writeU16 _ _ _ (by omega)]
    exact Nat.mod_eq_of_lt ht
  · show readU16 (writeU16 (writeU16 buf 0 t) 2 K) 2 = K
    rw [readU16_writeU16 _ _ _ (by rw [writeU16, length_writeLE]; omega)]
    exact Nat.mod_eq_of_lt hK
  · intro i h
    exact absurd h (by simp)
  · intro i h1 h2
    simp only [List.length_nil] at h2
    omega
  · intro i h
    exact absurd h (by simp)
  · intro i h
    exact absurd h (by simp)
  · intro i h
    exact absurd h (by simp)
  · intro i h
    exact absurd h (by simp)

/-- `leafInsert` on a decoded leaf produces a node that decodes to the old
entries with the new record inserted at position `idx`. -/
theorem leafInsert_build {told L : Nat} {esOld : List Entry}
    {old newBuf : Bytes} {idx : Nat} {key val : Bytes}
    (hold : Decodes old told esOld) (heok : ∀ e ∈ esOld, entryOk e)
    (hkv : entryOk ⟨0, key, val⟩) (hidx : idx ≤ esOld.length)
    (hbuf : newBuf.length = L) (hn65 : esOld.length + 1 < 65536)
    (hfit : 4 + 10 * (esOld.length + 1) + ((esOld.map entrySize).sum
      + entrySize ⟨0, key, val⟩) ≤ L)
    (hsz : 4 + 10 * (esOld.length + 1) + ((esOld.map entrySize).sum
      + entrySize ⟨0, key, val⟩) < 65536) :
    ∃ c, leafInsert newBuf old idx key val = .ok c ∧
      Decodes c BNODE_LEAF
        (esOld.take idx ++ ⟨0, key, val⟩ :: esOld.drop idx) := by
  set n := esOld.length with hn
  set e : Entry := ⟨0, key, val⟩ with he
  have hsplit : esOld.take idx ++ esOld.drop idx = esOld := List.take_append_drop _ _
  have hsum : ((esOld.take idx).map entrySize).sum
      + ((esOld.drop idx).map entrySize).sum = (esOld.map entrySize).sum := by
    rw [← List.sum_append, ← List.map_append, hsplit]
  have hL4 : 4 ≤ L := by omega
  have hpb0 : PartialBuild L (n + 1) BNODE_LEAF []
      (setHeader newBuf BNODE_LEAF (u16 (n + 1))) := by
    rw [u16_eq_of_lt (by omega)]
    exact partialBuild_setHeader hbuf hL4 (by norm_num [BNODE_LEAF]) (by omega)
  obtain ⟨c1, happ1, hpb1⟩ := nodeAppendRange_build hold heok idx 0 []
    (setHeader newBuf BNODE_LEAF (u16 (n + 1))) hpb0 (by omega)
    (by simp; omega)
    (by rw [sliceEs_from_zero]
        have h1 : ((esOld.take idx).map entrySize).sum
          ≤ (esOld.map entrySize).sum := by omega
        simp only [offsTo_nil, List.length_nil]
        have h2 := entrySize_ge e
        omega)
    (by rw [sliceEs_from_zero]
        simp only [offsTo_nil, List.length_nil]
        have h2 := entrySize_ge e
        omega)
  rw [sliceEs_from_zero, List.nil_append] at hpb1
  have hlen1 : (esOld.take idx).length = idx := length_take_of_le hidx
  have hoffs1 : offsTo (esOld.take idx) idx = ((esOld.take idx).map entrySize).sum := by
    have h := offsTo_full (esOld.take idx)
    rwa [hlen1] at h
  obtain ⟨c2, happ2, hpb2⟩ := nodeAppendKV_build hpb1
    (by omega) hkv
    (by rw [hlen1, hoffs1]; omega)
    (by rw [hlen1, hoffs1]; omega)
  rw [hlen1] at happ2
  have hlen2 : (esOld.take idx ++ [e]).length = idx + 1 := by
    rw [List.length_append, hlen1, List.length_cons, List.length_nil]
  have hoffs2 : offsTo (esOld.take idx ++ [e]) (idx + 1)
      = ((esOld.take idx).map entrySize).sum + entrySize e := by
    have h := offsTo_concat (esOld.take idx) e
    rw [hlen1] at h
    rw [h, hoffs1]
  obtain ⟨c3, happ3, hpb3⟩ := nodeAppendRange_build hold heok (n - idx) idx
    (esOld.take idx ++ [e]) c2 hpb2 (by omega) (by rw [hlen2]; omega)
    (by rw [hlen2, hoffs2, sliceEs_all]
        have h1 : ((esOld.drop idx).map entrySize).sum
          ≤ (esOld.map entrySize).sum := by omega
        omega)
    (by rw [hlen2, hoffs2, sliceEs_all]
        omega)
  rw [hlen2] at happ3
  rw [sliceEs_all, List.append_assoc, List.singleton_append] at hpb3
  have hfin : (esOld.take idx ++ e :: esOld.drop idx).length = n + 1 := by
    rw [List.length_append, hlen1, List.length_cons, List.length_drop]
    omega
  have hoffs3 : offsTo (esOld.take idx ++ e :: esOld.drop idx) (n + 1)
      = (esOld.map entrySize).sum + entrySize e := by
    rw [← hfin, offsTo_full]
    simp only [List.map_append, List.sum_append, List.map_cons, List.sum_cons]
    omega
  have hdec : Decodes c3 BNODE_LEAF (esOld.take idx ++ e :: esOld.drop idx) := by
    refine partialBuild_decodes hpb3 hfin ?_ ?_ ?_
    · rw [hfin, hoffs3]
      omega
    · rw [hfin, hoffs3]
      omega
    · intro x hx
      rcases List.mem_append.1 hx with hx1 | hx2
      · exact heok x (List.mem_of_mem_take hx1)
      · rcases List.mem_cons.1 hx2 with hx3 | hx4
        · rw [hx3]
          exact hkv
        · exact heok x (List.mem_of_mem_drop hx4)
  refine ⟨c3, ?_, hdec⟩
  have happ2x : nodeAppendKV c1 idx 0 key val = .ok c2 := happ2
  show (do
    let n1 ← nodeAppendRange
      (setHeader newBuf BNODE_LEAF (u16 (nkeys old + 1))) old 0 0 idx
    let n2 ← nodeAppendKV n1 idx 0 key val
    nodeAppendRange n2 old (idx + 1) idx (sub16 (nkeys old) idx)) = .ok c3
  simp only [List.length_nil] at happ1
  rw [hold.hnk, ← hn, happ1, bind_ok_eq, happ2x, bind_ok_eq,
    show sub16 n idx = n - idx from sub16_eq_sub hidx (by omega)]
  exact happ3

/-- `leafUpdate` on a decoded leaf produces a node that decodes to the old
entries with the record at `idx` replaced. -/
theorem leafUpdate_build {told L : Nat} {esOld : List Entry}
    {old newBuf : Bytes} {idx : Nat} {key val : Bytes}
    (hold : Decodes old told esOld) (heok : ∀ e ∈ esOld, entryOk e)
    (hkv : entryOk ⟨0, key, val⟩) (hidx : idx < esOld.length)
    (hbuf : newBuf.length = L) (hn65 : esOld.length < 65536)
    (hfit : 4 + 10 * esOld.length + (((esOld.take idx).map entrySize).sum
      + entrySize ⟨0, key, val⟩
      + ((esOld.drop (idx + 1)).map entrySize).sum) ≤ L)
    (hsz : 4 + 10 * esOld.length + (((esOld.take idx).map entrySize).sum
      + entrySize ⟨0, key, val⟩
      + ((esOld.drop (idx + 1)).map entrySize).sum) < 65536) :
    ∃ c, leafUpdate newBuf old idx key val = .ok c ∧
      Decodes c BNODE_LEAF
        (esOld.take idx ++ ⟨0, key, val⟩ :: esOld.drop (idx + 1)) := by
  set n := esOld.length with hn
  set e : Entry := ⟨0, key, val⟩ with he
  have hL4 : 4 ≤ L := by omega
  have hpb0 : PartialBuild L n BNODE_LEAF []
      (setHeader newBuf BNODE_LEAF (nkeys old)) := by
    rw [hold.hnk, ← hn]
    exact partialBuild_setHeader hbuf hL4 (by norm_num [BNODE_LEAF]) (by omega)
  obtain ⟨c1, happ1, hpb1⟩ := nodeAppendRange_build hold heok idx 0 []
    (setHeader newBuf BNODE_LEAF (nkeys old)) hpb0 (by omega)
    (by simp; omega)
    (by rw [sliceEs_from_zero]
        simp only [offsTo_nil, List.length_nil]
        have h2 := entrySize_ge e
        omega)
    (by rw [sliceEs_from_zero]
        simp only [offsTo_nil, List.length_nil]
        have h2 := entrySize_ge e
        omega)
  rw [sliceEs_from_zero, List.nil_append] at hpb1
  have hlen1 : (esOld.take idx).length = idx := length_take_of_le (by omega)
  have hoffs1 : offsTo (esOld.take idx) idx
      = ((esOld.take idx).map entrySize).sum := by
    have h := offsTo_full (esOld.take idx)
    rwa [hlen1] at h
  obtain ⟨c2, happ2, hpb2⟩ := nodeAppendKV_build hpb1
    (by omega) hkv
    (by rw [hlen1, hoffs1]; omega)
    (by rw [hlen1, hoffs1]; omega)
  rw [hlen1] at happ2
  have hlen2 : (esOld.take idx ++ [e]).length = idx + 1 := by
    rw [List.length_append, hlen1, List.length_cons, List.length_nil]
  have hoffs2 : offsTo (esOld.take idx ++ [e]) (idx + 1)
      = ((esOld.take idx).map entrySize).sum + entrySize e := by
    have h := offsTo_concat (esOld.take idx) e
    rw [hlen1] at h
    rw [h, hoffs1]
  obtain ⟨c3, happ3, hpb3⟩ := nodeAppendRange_build hold heok (n - (idx + 1))
    (idx + 1) (esOld.take idx ++ [e]) c2 hpb2 (by omega) (by rw [hlen2]; omega)
    (by rw [hlen2, hoffs2, sliceEs_all]
        omega)
    (by rw [hlen2, hoffs2, sliceEs_all]
        omega)
  rw [hlen2] at happ3
  rw [sliceEs_all, List.append_assoc, List.singleton_append] at hpb3
  have hfin : (esOld.take idx ++ e :: esOld.drop (idx + 1)).length = n := by
    rw [List.length_append, hlen1, List.length_cons, List.length_drop]
    omega
  have hoffs3 : offsTo (esOld.take idx ++ e :: esOld.drop (idx + 1)) n
      = ((esOld.take idx).map entrySize).sum + entrySize e
        + ((esOld.drop (idx + 1)).map entrySize).sum := by
    rw [← hfin, offsTo_full]
    simp only [List.map_append, List.sum_append, List.map_cons, List.sum_cons]
    omega
  have hdec : Decodes c3 BNODE_LEAF
      (esOld.take idx ++ e :: esOld.drop (idx + 1)) := by
    refine partialBuild_decodes hpb3 hfin ?_ ?_ ?_
    · rw [hfin, hoffs3]
      omega
    · rw [hfin, hoffs3]
      omega
    · intro x hx
      rcases List.mem_append.1 hx with hx1 | hx2
      · exact heok x (List.mem_of_mem_take hx1)
      · rcases List.mem_cons.1 hx2 with hx3 | hx4
        · rw [hx3]
          exact hkv
        · exact heok x (List.mem_of_mem_drop hx4)
  refine ⟨c3, ?_, hdec⟩
  have happ2x : nodeAppendKV c1 idx 0 key val = .ok c2 := happ2
  show (do
    let n1 ← nodeAppendRange
      (setHeader newBuf BNODE_LEAF (nkeys old)) old 0 0 idx
    let n2 ← nodeAppendKV n1 idx 0 key val
    nodeAppendRange n2 old (idx + 1) (idx + 1)
      (sub16 (nkeys old) (idx + 1))) = .ok c3
  simp only [List.length_nil] at happ1
  rw [hold.hnk, ← hn] at happ1 ⊢
  rw [happ1, bind_ok_eq, happ2x, bind_ok_eq,
    show sub16 n (idx + 1) = n - (idx + 1)
      from sub16_eq_sub (by omega) (by omega)]
  exact happ3

/-! ### Order lemmas for `bytes.Compare` -/

theorem compareBytes_eq_iff : ∀ {a b : Bytes}, compareBytes a b = .eq ↔ a = b := by
  intro a
  induction a with
  | nil =>
    intro b
    cases b with
    | nil => simp [compareBytes]
    | cons y ys => simp [compareBytes]
  | cons x xs ih =>
    intro b
    cases b with
    | nil => simp [compareBytes]
    | cons y ys =>
      unfold compareBytes
      rcases Nat.lt_trichotomy x y with h | h | h
      · rw [if_pos h]
        simp only [List.cons.injEq]
        constructor
        · intro hc
          exact absurd hc (by decide)
        · intro hc
          omega
      · subst h
        rw [if_neg (lt_irrefl x), if_neg (lt_irrefl x)]
        simp only [List.cons.injEq, true_and]
        exact ih
      · rw [if_neg (by omega), if_pos h]
        simp only [List.cons.injEq]
        constructor
        · intro hc
          exact absurd hc (by decide)
        · intro hc
          omega

theorem compareBytes_self (a : Bytes) : compareBytes a a = .eq :=
  compareBytes_eq_iff.2 rfl

theorem compareBytes_swap : ∀ (a b : Bytes),
    compareBytes b a = (compareBytes a b).swap := by
  intro a
  induction a with
  | nil =>
    intro b
    cases b <;> rfl
  | cons x xs ih =>
    intro b
    cases b with
    | nil => rfl
    | cons y ys =>
      unfold compareBytes
      rcases Nat.lt_trichotomy x y with h | h | h
      · simp only [if_pos h, if_neg (show ¬ y < x by omega)]
        rfl
      · subst h
        simp only [if_neg (lt_irrefl x)]
        exact ih ys
      · simp only [if_pos h, if_neg (show ¬ x < y by omega)]
        rfl

theorem compareBytes_gt_iff {a b : Bytes} :
    compareBytes a b = .gt ↔ compareBytes b a = .lt := by
  rw [compareBytes_swap a b]
  cases compareBytes a b <;> simp [Ordering.swap]

theorem compareBytes_lt_trans : ∀ {a b c : Bytes},
    compareBytes a b = .lt → compareBytes b c = .lt →
    compareBytes a c = .lt := by
  intro a
  induction a with
  | nil =>
    intro b c h1 h2
    cases c with
    | nil =>
      cases b with
      | nil => exact absurd h1 (by simp [compareBytes])
      | cons y ys => exact absurd h2 (by simp [compareBytes])
    | cons z zs => simp [compareBytes]
  | cons x xs ih =>
    intro b c h1 h2
    cases b with
    | nil => exact absurd h1 (by simp [compareBytes])
    | cons y ys =>
      cases c with
      | nil => exact absurd h2 (by simp [compareBytes])
      | cons z zs =>
        unfold compareBytes at h1 h2 ⊢
        by_cases hxy : x < y
        · by_cases hyz : y < z
          · rw [if_pos (by omega)]
          · rw [if_neg hyz] at h2
            by_cases hzy : z < y
            · rw [if_pos hzy] at h2
              exact absurd h2 (by decide)
            · have : y = z := by omega
              subst this
              rw [if_pos hxy]
        · rw [if_neg hxy] at h1
          by_cases hyx : y < x
          · rw [if_pos hyx] at h1
            exact absurd h1 (by decide)
          · have hxeq : x = y := by omega
            subst hxeq
            rw [if_neg (lt_irrefl x)] at h1
            by_cases hxz : x < z
            · rw [if_pos hxz]
            · rw [if_neg hxz] at h2 ⊢
              by_cases hzx : z < x
              · rw [if_pos hzx] at h2
                exact absurd h2 (by decide)
              · rw [if_neg hzx] at h2 ⊢
                exact ih h1 h2

/-- Strictly ascending, duplicate-free key order of a node's entries. -/
def keysSorted (es : List Entry) : Prop :=
  es.Pairwise fun x y => compareBytes x.key y.key = .lt

instance (es : List Entry) : Decidable (keysSorted es) := by
  unfold keysSorted
  exact List.instDecidablePairwise es

theorem keysSorted_lt {es : List Entry} (h : keysSorted es) {i j : Nat}
    (hij : i < j) (hj : j < es.length) :
    compareBytes es[i].key es[j].key = .lt := by
  rw [keysSorted, List.pairwise_iff_get] at h
  have hx := h ⟨i, by omega⟩ ⟨j, hj⟩ hij
  simpa [List.get_eq_getElem] using hx

/-- The binary-search loop returns the largest index whose key is at most
the target, whenever such an index exists.  The invariants: everything left
of `lo` is ≤ the target, everything right of `hi` is > the target. -/
theorem lookupLoop_correct {node key : Bytes} {es : List Entry} {t : Nat}
    (hd : Decodes node t es) (hsort : keysSorted es) {j : Nat}
    (hj : j < es.length) (hle : compareBytes es[j].key key ≠ .gt)
    (hgt : ∀ m, (hm : m < es.length) → j < m →
      compareBytes es[m].key key = .gt) :
    ∀ fuel lo hi, hi < es.length → hi + 1 - lo < fuel →
    (∀ m, (hm : m < es.length) → m < lo →
      compareBytes es[m].key key ≠ .gt) →
    (∀ m, (hm : m < es.length) → hi < m →
      compareBytes es[m].key key = .gt) →
    lookupLoop node key fuel lo hi = .ok j := by
  intro fuel
  induction fuel with
  | zero =>
    intro lo hi hhi hfuel h1 h2
    omega
  | succ fuel ih =>
    intro lo hi hhi hfuel h1 h2
    rw [lookupLoop]
    by_cases hlh : lo ≤ hi
    · rw [if_pos hlh]
      have hmidlo : lo ≤ lo + (hi - lo) / 2 := by omega
      have hmidhi : lo + (hi - lo) / 2 ≤ hi := by
        have := Nat.div_le_self (hi - lo) 2
        omega
      have hmid : lo + (hi - lo) / 2 < es.length := by omega
      show (do
        let kmid ← getKey node (lo + (hi - lo) / 2)
        match compareBytes kmid key with
        | Ordering.eq => pure (lo + (hi - lo) / 2)
        | Ordering.lt => lookupLoop node key fuel (lo + (hi - lo) / 2 + 1) hi
        | Ordering.gt =>
          if lo + (hi - lo) / 2 = 0 then
            pure (if hi < nkeys node then hi else 0)
          else lookupLoop node key fuel lo (lo + (hi - lo) / 2 - 1))
        = Except.ok j
      rw [hd.hkey _ hmid, bind_ok_eq]
      set mid := lo + (hi - lo) / 2 with hmiddef
      -- j is within [lo, hi]: left of lo is ≤ key yet j is the top such
      have hjhi : j ≤ hi := by
        by_contra hc
        exact hle (h2 j hj (by omega))
      rcases hcmp : compareBytes es[mid].key key with hx | hx | hx
      · -- .lt : everything up to mid is below the key
        have hlo' : ∀ m, (hm : m < es.length) → m < mid + 1 →
            compareBytes es[m].key key ≠ .gt := by
          intro m hm hmlt
          by_cases hmlo : m < lo
          · exact h1 m hm hmlo
          · by_cases hmmid : m = mid
            · subst hmmid
              rw [hcmp]
              decide
            · have hless : compareBytes es[m].key es[mid].key = .lt :=
                keysSorted_lt hsort (by omega) hmid
              rw [compareBytes_lt_trans hless hcmp]
              decide
        exact ih (mid + 1) hi hhi (by omega) hlo' h2
      · -- .eq : found the key; the found index is exactly j
        have heq : es[mid].key = key := compareBytes_eq_iff.1 hcmp
        have : mid = j := by
          rcases Nat.lt_trichotomy mid j with hx2 | hx2 | hx2
          · have hless : compareBytes es[mid].key es[j].key = .lt :=
              keysSorted_lt hsort hx2 hj
            rw [heq] at hless
            rcases hcj : compareBytes es[j].key key with hy | hy | hy
            · have := compareBytes_lt_trans hless hcj
              rw [compareBytes_self] at this
              exact absurd this (by decide)
            · rw [compareBytes_eq_iff.1 hcj] at hless
              rw [compareBytes_self] at hless
              exact absurd hless (by decide)
            · exact absurd hcj hle
          · exact hx2
          · have := hgt mid hmid hx2
            rw [hcmp] at this
            exact absurd this (by decide)
        show (pure (lo + (hi - lo) / 2) : GoM Nat) = .ok j
        rw [pure_eq_ok]
        exact congrArg Except.ok (by omega)
      · -- .gt : the key lies strictly left of mid
        have hmid0 : mid ≠ 0 := by
          intro hc
          have hkey0 : compareBytes es[0].key key = .gt := by
            have hx := hcmp
            simp only [hc] at hx
            exact hx
          by_cases hj0 : j = 0
          · subst hj0
            exact hle hkey0
          · have hless : compareBytes es[0].key es[j].key = .lt :=
              keysSorted_lt hsort (by omega) hj
            rcases hcj : compareBytes es[j].key key with hy | hy | hy
            · have h01 := compareBytes_lt_trans hless hcj
              have h02 := compareBytes_gt_iff.1 hkey0
              have := compareBytes_lt_trans h02 h01
              rw [compareBytes_self] at this
              exact absurd this (by decide)
            · rw [compareBytes_eq_iff.1 hcj] at hless
              have h02 := compareBytes_gt_iff.1 hkey0
              have := compareBytes_lt_trans h02 hless
              rw [compareBytes_self] at this
              exact absurd this (by decide)
            · exact absurd hcj hle
        rw [show (if lo + (hi - lo) / 2 = 0 then
              (pure (if hi < nkeys node then hi else 0) : GoM Nat)
            else lookupLoop node key fuel lo (lo + (hi - lo) / 2 - 1))
            = lookupLoop node key fuel lo (lo + (hi - lo) / 2 - 1) from
          if_neg (by omega)]
        have hhi' : ∀ m, (hm : m < es.length) → mid - 1 < m →
            compareBytes es[m].key key = .gt := by
          intro m hm hmgt
          by_cases hmmid : m = mid
          · subst hmmid
            exact hcmp
          · by_cases hmhi : hi < m
            · exact h2 m hm hmhi
            · have hless : compareBytes es[mid].key es[m].key = .lt :=
                keysSorted_lt hsort (by omega) hm
              rw [compareBytes_gt_iff] at hcmp ⊢
              exact compareBytes_lt_trans hcmp hless
        have hgoal := ih lo (mid - 1) (by omega) (by omega) h1 hhi'
        rw [hmiddef] at hgoal
        exact hgoal
    · rw [if_neg hlh]
      -- exit: hi is exactly j
      have hjhi : j ≤ hi := by
        by_contra hc
        exact hle (h2 j hj (by omega))
      have hhij : hi ≤ j := by
        by_contra hc
        have hhiterm := h1 hi hhi (by omega)
        exact hhiterm (hgt hi hhi (by omega))
      have : hi = j := by omega
      subst this
      rw [hd.hnk, if_pos hhi]
      rfl

/-- `nodeLookupLE` finds the largest index with key at most the target. -/
theorem nodeLookupLE_found {node key : Bytes} {es : List Entry} {t : Nat}
    (hd : Decodes node t es) (hsort : keysSorted es) {j : Nat}
    (hj : j < es.length) (hle : compareBytes es[j].key key ≠ .gt)
    (hgt : ∀ m, (hm : m < es.length) → j < m →
      compareBytes es[m].key key = .gt) :
    nodeLookupLE node key = .ok j := by
  unfold nodeLookupLE
  show (if nkeys node = 0 then pure 0
    else lookupLoop node key (nkeys node + 1) 0 (nkeys node - 1)) = .ok j
  rw [hd.hnk, if_neg (by omega)]
  exact lookupLoop_correct hd hsort hj hle hgt (es.length + 1) 0
    (es.length - 1) (by omega) (by omega)
    (fun m hm h => absurd h (by omega))
    (fun m hm h => absurd hm (by omega))

/-- When every key exceeds the target, the loop starting at `lo = 0` ends by
returning the residual upper bound, which is 0 or 1 (not always 0). -/
theorem lookupLoop_allgt {node key : Bytes} {es : List Entry} {t : Nat}
    (hd : Decodes node t es)
    (hall : ∀ m, (hm : m < es.length) → compareBytes es[m].key key = .gt) :
    ∀ fuel hi, hi < es.length → hi + 1 < fuel →
    ∃ r, lookupLoop node key fuel 0 hi = .ok r ∧ r ≤ 1 ∧ r < es.length := by
  intro fuel
  induction fuel with
  | zero =>
    intro hi hhi hfuel
    omega
  | succ fuel ih =>
    intro hi hhi hfuel
    have hmid : 0 + (hi - 0) / 2 < es.length := by
      have := Nat.div_le_self hi 2
      omega
    have hcmp := hall _ hmid
    have heq : lookupLoop node key (fuel + 1) 0 hi
        = (if 0 + (hi - 0) / 2 = 0 then
            (pure (if hi < nkeys node then hi else 0) : GoM Nat)
          else lookupLoop node key fuel 0 (0 + (hi - 0) / 2 - 1)) := by
      rw [lookupLoop, if_pos (Nat.zero_le hi)]
      show (do
        let kmid ← getKey node (0 + (hi - 0) / 2)
        match compareBytes kmid key with
        | Ordering.eq => pure (0 + (hi - 0) / 2)
        | Ordering.lt => lookupLoop node key fuel (0 + (hi - 0) / 2 + 1) hi
        | Ordering.gt =>
          if 0 + (hi - 0) / 2 = 0 then
            pure (if hi < nkeys node then hi else 0)
          else lookupLoop node key fuel 0 (0 + (hi - 0) / 2 - 1)) = _
      rw [hd.hkey _ hmid, bind_ok_eq, hcmp]
    rw [heq]
    by_cases h0 : 0 + (hi - 0) / 2 = 0
    · rw [if_pos h0, hd.hnk, if_pos hhi]
      exact ⟨hi, rfl, by omega, hhi⟩
    · rw [if_neg h0]
      exact ih (0 + (hi - 0) / 2 - 1) (by omega) (by omega)

/-- `nodeLookupLE` on an empty node returns 0. -/
theorem nodeLookupLE_empty {node key : Bytes} (h : nkeys node = 0) :
    nodeLookupLE node key = .ok 0 := by
  unfold nodeLookupLE
  show (if nkeys node = 0 then pure 0
    else lookupLoop node key (nkeys node + 1) 0 (nkeys node - 1)) = .ok 0
  rw [if_pos h]
  rfl

/-- `nodeLookupLE` when every key exceeds the target: the result is 0 or 1,
and in particular below `nkeys`. -/
theorem nodeLookupLE_allgt {node key : Bytes} {es : List Entry} {t : Nat}
    (hd : Decodes node t es) (hne : es ≠ [])
    (hall : ∀ m, (hm : m < es.length) → compareBytes es[m].key key = .gt) :
    ∃ r, nodeLookupLE node key = .ok r ∧ r ≤ 1 ∧ r < es.length := by
  have hlen : 0 < es.length := List.length_pos.2 hne
  unfold nodeLookupLE
  show (∃ r, (if nkeys node = 0 then pure 0
    else lookupLoop node key (nkeys node + 1) 0 (nkeys node - 1)) = .ok r
    ∧ r ≤ 1 ∧ r < es.length)
  rw [hd.hnk, if_neg (by omega)]
  exact lookupLoop_allgt hd hall (es.length + 1) (es.length - 1)
    (by omega) (by omega)

/-- Placeholder entry used as the default of list lookups in hypotheses. -/
def dEntry : Entry := ⟨0, [], []⟩

theorem getD_entry_eq {l : List Entry} {m : Nat} (h : m < l.length)
    (d : Entry) : l.getD m d = l[m] := by
  rw [List.getD_eq_getElem?_getD, List.getElem?_eq_getElem h]
  rfl

/-- The kid loop of `nodeReplaceKidN` appends one separator entry per kid:
the pointer freshly obtained from `tree.new`, the kid's own first key, and an
empty value. -/
theorem replaceKidsLoop_build {L K t : Nat} {tree : BTree} (idx : Nat) :
    ∀ (kids : List Bytes) (kidE : List Entry) (i : Nat) (es : List Entry)
      (b : Bytes),
    PartialBuild L K t es b →
    kidE.length = kids.length →
    (∀ m, (hm : m < kids.length) →
      getKey kids[m] 0 = .ok (kidE.getD m dEntry).key ∧
      (kidE.getD m dEntry).ptr = tree.new kids[m] ∧
      (kidE.getD m dEntry).val = [] ∧ entryOk (kidE.getD m dEntry)) →
    es.length = idx + i →
    es.length + kids.length ≤ K →
    4 + 10 * K + offsTo es es.length + (kidE.map entrySize).sum ≤ L →
    4 + 10 * K + offsTo es es.length + (kidE.map entrySize).sum < 65536 →
    ∃ c, replaceKidsLoop tree b idx i kids = .ok c ∧
      PartialBuild L K t (es ++ kidE) c := by
  intro kids
  induction kids with
  | nil =>
    intro kidE i es b hpb hlenE hkids hlen hle hfit hsz
    have : kidE = [] := List.length_eq_zero.1 (by simpa using hlenE)
    subst this
    exact ⟨b, rfl, by simpa using hpb⟩
  | cons kd kids ih =>
    intro kidE i es b hpb hlenE hkids hlen hle hfit hsz
    cases kidE with
    | nil => simp at hlenE
    | cons ke kidE =>
      simp only [List.length_cons] at hlenE hle
      simp only [List.map_cons, List.sum_cons] at hfit hsz
      have hk0 := hkids 0 (by simp)
      simp only [List.getD_cons_zero, List.getElem_cons_zero] at hk0
      obtain ⟨hgk, hptr, hval, heok0⟩ := hk0
      obtain ⟨c1, happ1, hpb1⟩ := nodeAppendKV_build hpb
        (by omega) heok0 (by omega) (by omega)
      have hstep : replaceKidsLoop tree b idx i (kd :: kids)
          = replaceKidsLoop tree c1 idx (i + 1) kids := by
        show (do
          let k ← getKey kd 0
          let c ← nodeAppendKV b (u16 (idx + i)) (tree.new kd) k []
          replaceKidsLoop tree c idx (i + 1) kids) = _
        rw [hgk, bind_ok_eq, u16_eq_of_lt (by omega), ← hlen, ← hptr, ← hval,
          happ1, bind_ok_eq]
      obtain ⟨c, happ2, hpb2⟩ := ih kidE (i + 1) (es ++ [ke]) c1 hpb1
        (by omega)
        (by intro m hm
            have hx := hkids (m + 1) (by simp; omega)
            simpa [List.getD_cons_succ, List.getElem_cons_succ] using hx)
        (by simp; omega) (by simp; omega)
        (by rw [List.length_append, List.length_cons, List.length_nil,
              offsTo_concat]
            omega)
        (by rw [List.length_append, List.length_cons, List.length_nil,
              offsTo_concat]
            omega)
      refine ⟨c, ?_, ?_⟩
      · rw [hstep]
        exact happ2
      · rw [List.append_assoc, List.singleton_append] at hpb2
        exact hpb2

/-- `nodeReplaceKidN` builds an internal node with `old.nkeys + kids - 1`
entries: the prefix up to `idx`, one entry per replacement kid (pointer from
`tree.new`, the kid's first key, empty value), then the remaining entries of
`old` shifted. -/
theorem nodeReplaceKidN_build {told L : Nat} {esOld kidE : List Entry}
    {old newBuf : Bytes} {idx : Nat} {tree : BTree} {kids : List Bytes}
    (hold : Decodes old told esOld) (heok : ∀ e ∈ esOld, entryOk e)
    (hkne : kids ≠ []) (hlenE : kidE.length = kids.length)
    (hkids : ∀ m, (hm : m < kids.length) →
      getKey kids[m] 0 = .ok (kidE.getD m dEntry).key ∧
      (kidE.getD m dEntry).ptr = tree.new kids[m] ∧
      (kidE.getD m dEntry).val = [] ∧ entryOk (kidE.getD m dEntry))
    (hidx : idx < esOld.length) (hbuf : newBuf.length = L)
    (hK65 : esOld.length + kids.length < 65536)
    (hfit : 4 + 10 * (esOld.length + kids.length - 1)
      + (((esOld.take idx).map entrySize).sum + (kidE.map entrySize).sum
        + ((esOld.drop (idx + 1)).map entrySize).sum) ≤ L)
    (hsz : 4 + 10 * (esOld.length + kids.length - 1)
      + (((esOld.take idx).map entrySize).sum + (kidE.map entrySize).sum
        + ((esOld.drop (idx + 1)).map entrySize).sum) < 65536) :
    ∃ c, nodeReplaceKidN tree newBuf old idx kids = .ok c ∧
      Decodes c BNODE_NODE (esOld.take idx ++ kidE ++ esOld.drop (idx + 1)) := by
  set n := esOld.length with hn
  set inc := kids.length with hinc
  have hinc1 : 1 ≤ inc := by
    rw [hinc]
    cases kids with
    | nil => exact absurd rfl hkne
    | cons a b => simp
  set K := n + inc - 1 with hK
  have hL4 : 4 ≤ L := by omega
  have hpb0 : PartialBuild L K BNODE_NODE []
      (setHeader newBuf BNODE_NODE (sub16 (u16 (nkeys old + inc)) 1)) := by
    rw [hold.hnk, ← hn, u16_eq_of_lt (by omega),
      show sub16 (n + inc) 1 = n + inc - 1 from
        sub16_eq_sub (by omega) (by omega), ← hK]
    exact partialBuild_setHeader hbuf hL4 (by norm_num [BNODE_NODE]) (by omega)
  obtain ⟨c1, happ1, hpb1⟩ := nodeAppendRange_build hold heok idx 0 []
    (setHeader newBuf BNODE_NODE (sub16 (u16 (nkeys old + inc)) 1)) hpb0
    (by omega) (by simp; omega)
    (by rw [sliceEs_from_zero]
        simp only [offsTo_nil, List.length_nil]
        omega)
    (by rw [sliceEs_from_zero]
        simp only [offsTo_nil, List.length_nil]
        omega)
  rw [sliceEs_from_zero, List.nil_append] at hpb1
  have hlen1 : (esOld.take idx).length = idx := length_take_of_le (by omega)
  have hoffs1 : offsTo (esOld.take idx) idx
      = ((esOld.take idx).map entrySize).sum := by
    have h := offsTo_full (esOld.take idx)
    rwa [hlen1] at h
  obtain ⟨c2, happ2, hpb2⟩ := replaceKidsLoop_build idx
    kids kidE 0 (esOld.take idx) c1 hpb1 hlenE hkids (by omega)
    (by rw [hlen1]; omega)
    (by rw [hlen1, hoffs1]; omega)
    (by rw [hlen1, hoffs1]; omega)
  have hlen2 : (esOld.take idx ++ kidE).length = idx + inc := by
    rw [List.length_append, hlen1, hlenE, hinc]
  have hoffs2 : offsTo (esOld.take idx ++ kidE) (idx + inc)
      = ((esOld.take idx).map entrySize).sum + (kidE.map entrySize).sum := by
    have h := offsTo_full (esOld.take idx ++ kidE)
    rw [hlen2] at h
    rw [h, List.map_append, List.sum_append]
  obtain ⟨c3, happ3, hpb3⟩ := nodeAppendRange_build hold heok (n - (idx + 1))
    (idx + 1) (esOld.take idx ++ kidE) c2 hpb2 (by omega)
    (by rw [hlen2]; omega)
    (by rw [hlen2, hoffs2, sliceEs_all]
        omega)
    (by rw [hlen2, hoffs2, sliceEs_all]
        omega)
  rw [hlen2] at happ3
  rw [sliceEs_all] at hpb3
  have hfin : (esOld.take idx ++ kidE ++ esOld.drop (idx + 1)).length = K := by
    rw [List.length_append, List.length_append, hlen1, hlenE,
      List.length_drop]
    omega
  have hoffs3 : offsTo (esOld.take idx ++ kidE ++ esOld.drop (idx + 1)) K
      = ((esOld.take idx).map entrySize).sum + (kidE.map entrySize).sum
        + ((esOld.drop (idx + 1)).map entrySize).sum := by
    have h := offsTo_full (esOld.take idx ++ kidE ++ esOld.drop (idx + 1))
    rw [hfin] at h
    rw [h]
    simp only [List.map_append, List.sum_append]
  have hdec : Decodes c3 BNODE_NODE
      (esOld.take idx ++ kidE ++ esOld.drop (idx + 1)) := by
    refine partialBuild_decodes hpb3 hfin ?_ ?_ ?_
    · rw [hfin, hoffs3]
      omega
    · rw [hfin, hoffs3]
      omega
    · intro x hx
      rcases List.mem_append.1 hx with hx1 | hx2
      · rcases List.mem_append.1 hx1 with hx3 | hx4
        · exact heok x (List.mem_of_mem_take hx3)
        · obtain ⟨m, hm, hxm⟩ := List.getElem_of_mem hx4
          have hthis := (hkids m (by omega)).2.2.2
          rw [getD_entry_eq hm, hxm] at hthis
          exact hthis
      · exact heok x (List.mem_of_mem_drop hx2)
  refine ⟨c3, ?_, hdec⟩
  show (do
    let n1 ← nodeAppendRange
      (setHeader newBuf BNODE_NODE (sub16 (u16 (nkeys old + kids.length)) 1))
      old 0 0 idx
    let n2 ← replaceKidsLoop tree n1 idx 0 kids
    nodeAppendRange n2 old (u16 (idx + kids.length)) (idx + 1)
      (sub16 (nkeys old) (idx + 1))) = .ok c3
  simp only [List.length_nil] at happ1
  rw [← hinc, happ1, bind_ok_eq, happ2, bind_ok_eq,
    u16_eq_of_lt (show idx + inc < 65536 by omega), hold.hnk, ← hn,
    show sub16 n (idx + 1) = n - (idx + 1) from
      sub16_eq_sub (by omega) (by omega)]
  exact happ3

theorem bind_error_eq {α β : Type} (e : GoErr) (f : α → GoM β) :
    (Except.error e >>= f : GoM β) = .error e := rfl

/-- One unfolding of `treeInsert` on a leaf: after the lookup, the code
branches on exact key equality into `leafUpdate` or `leafInsert` at the next
slot. -/
theorem treeInsert_leaf_step {tree : BTree} {key val node k : Bytes}
    {fuel idx : Nat} (hlk : nodeLookupLE node key = .ok idx)
    (hleaf : btype node = BNODE_LEAF) (hgk : getKey node idx = .ok k) :
    treeInsert tree key val (fuel + 1) node =
      (if key = k then
        leafUpdate (List.replicate (2 * BTREE_PAGE_SIZE) 0) node idx key val
      else leafInsert (List.replicate (2 * BTREE_PAGE_SIZE) 0) node
        (idx + 1) key val) := by
  show (do
    let idx ← nodeLookupLE node key
    if btype node = BNODE_LEAF then do
      let k ← getKey node idx
      if key = k then
        leafUpdate (List.replicate (2 * BTREE_PAGE_SIZE) 0) node idx key val
      else
        leafInsert (List.replicate (2 * BTREE_PAGE_SIZE) 0) node (idx + 1) key val
    else if btype node = BNODE_NODE then do
      let kptr ← getPtr node idx
      let knode ← treeInsert tree key val fuel (tree.get kptr)
      let ns ← nodeSplit3 knode
      let _ := tree.del kptr
      nodeReplaceKidN tree (List.replicate (2 * BTREE_PAGE_SIZE) 0) node idx (ns.2.take ns.1)
    else pure (List.replicate (2 * BTREE_PAGE_SIZE) 0)) = _
  rw [hlk, bind_ok_eq, if_pos hleaf, hgk, bind_ok_eq]

/-- `treeInsert` on an empty leaf aborts: `nodeLookupLE` returns 0 and the
`getKey(0)` call violates its `idx < nkeys` assertion. -/
theorem treeInsert_emptyLeaf {tree : BTree} {key val node : Bytes}
    {fuel : Nat} (hleaf : btype node = BNODE_LEAF) (hempty : nkeys node = 0) :
    treeInsert tree key val (fuel + 1) node = .error .assertFailed := by
  have hgk : getKey node 0 = .error .assertFailed := by
    unfold getKey
    rw [show goAssert (0 < nkeys node) = .error .assertFailed by
        unfold goAssert
        rw [if_neg (by omega)],
      bind_error_eq]
  show (do
    let idx ← nodeLookupLE node key
    if btype node = BNODE_LEAF then do
      let k ← getKey node idx
      if key = k then
        leafUpdate (List.replicate (2 * BTREE_PAGE_SIZE) 0) node idx key val
      else
        leafInsert (List.replicate (2 * BTREE_PAGE_SIZE) 0) node (idx + 1) key val
    else if btype node = BNODE_NODE then do
      let kptr ← getPtr node idx
      let knode ← treeInsert tree key val fuel (tree.get kptr)
      let ns ← nodeSplit3 knode
      let _ := tree.del kptr
      nodeReplaceKidN tree (List.replicate (2 * BTREE_PAGE_SIZE) 0) node idx (ns.2.take ns.1)
    else pure (List.replicate (2 * BTREE_PAGE_SIZE) 0)) = _
  rw [nodeLookupLE_empty hempty, bind_ok_eq, if_pos hleaf, hgk, bind_error_eq]

/-! ### Concrete nodes exercising the splitter

Each is a well-formed two-record leaf in an 8192-byte buffer (as built by
`treeInsert`): record 0 has a 1000-byte key starting `0x06 0xF0` and a
3000-byte value, record 1 a 5-byte key `0x07 …` and a small value, so
`nbytes > 4096` and both records respect the declared size ceilings. -/

def splitBadNode2 : Bytes :=
  [2, 0, 2, 0] ++ List.replicate 16 0 ++ [164, 15, 233, 15] ++
  [232, 3, 184, 11] ++ ([6, 240] ++ List.replicate 998 0) ++
  List.replicate 3000 0 ++ [5, 0, 60, 0] ++ [7, 0, 0, 0, 0] ++
  List.replicate 60 0 ++ List.replicate 4095 0

def splitBadNode1 : Bytes :=
  [2, 0, 2, 0] ++ List.replicate 16 0 ++ [164, 15, 234, 15] ++
  [232, 3, 184, 11] ++ ([6, 240] ++ List.replicate 998 0) ++
  List.replicate 3000 0 ++ [5, 0, 61, 0] ++ [7, 0, 0, 0, 0] ++
  List.replicate 61 0 ++ List.replicate 4094 0

def splitBadNode3 : Bytes :=
  [2, 0, 2, 0] ++ List.replicate 16 0 ++ [164, 15, 235, 15] ++
  [232, 3, 184, 11] ++ ([6, 240] ++ List.replicate 998 0) ++
  List.replicate 3000 0 ++ [5, 0, 62, 0] ++ [7, 0, 0, 0, 0] ++
  List.replicate 62 0 ++ List.replicate 4093 0

/-- Inserting a key strictly between its neighbours keeps the key sequence
strictly ascending and duplicate-free. -/
theorem keysSorted_insert {es : List Entry} {idx : Nat} {e : Entry}
    (hsort : keysSorted es) (hidx : idx ≤ es.length)
    (hl : 1 ≤ idx → compareBytes (es.getD (idx - 1) dEntry).key e.key = .lt)
    (hr : idx < es.length → compareBytes e.key (es.getD idx dEntry).key = .lt) :
    keysSorted (es.take idx ++ e :: es.drop idx) := by
  unfold keysSorted at hsort ⊢
  rw [List.pairwise_append]
  have htk : ∀ a ∈ es.take idx, ∃ m, ∃ hm : m < es.length,
      m < idx ∧ es[m] = a := by
    intro a ha
    obtain ⟨m, hm, hma⟩ := List.getElem_of_mem ha
    rw [List.length_take] at hm
    refine ⟨m, by omega, by omega, ?_⟩
    rw [← hma, List.getElem_take]
  have hdr : ∀ b ∈ es.drop idx, ∃ m, ∃ hm : idx + m < es.length,
      es[idx + m] = b := by
    intro b hb
    obtain ⟨m, hm, hmb⟩ := List.getElem_of_mem hb
    rw [List.length_drop] at hm
    refine ⟨m, by omega, ?_⟩
    rw [← hmb, List.getElem_drop]
  have hElt : ∀ m, (hm : m < es.length) → m < idx →
      compareBytes es[m].key e.key = .lt := by
    intro m hm hmidx
    have h1 : 1 ≤ idx := by omega
    have hstep := hl h1
    rw [getD_entry_eq (by omega)] at hstep
    by_cases hme : m = idx - 1
    · subst hme
      exact hstep
    · exact compareBytes_lt_trans
        (keysSorted_lt hsort (by omega) (by omega)) hstep
  have heGt : ∀ m, (hm : idx + m < es.length) →
      compareBytes e.key es[idx + m].key = .lt := by
    intro m hm
    have hstep := hr (by omega)
    rw [getD_entry_eq (by omega)] at hstep
    by_cases hme : m = 0
    · subst hme
      exact hstep
    · exact compareBytes_lt_trans hstep
        (keysSorted_lt hsort (by omega) hm)
  refine ⟨hsort.sublist (List.take_sublist idx es), ?_, ?_⟩
  · rw [List.pairwise_cons]
    refine ⟨?_, hsort.sublist (List.drop_sublist idx es)⟩
    intro b hb
    obtain ⟨m, hm, hmb⟩ := hdr b hb
    rw [← hmb]
    exact heGt m hm
  · intro a ha b hb
    obtain ⟨m, hm, hmidx, hma⟩ := htk a ha
    rcases List.mem_cons.1 hb with hbe | hbd
    · rw [← hma, hbe]
      exact hElt m hm hmidx
    · obtain ⟨m2, hm2, hmb⟩ := hdr b hbd
      rw [← hma, ← hmb]
      exact keysSorted_lt hsort (by omega) hm2

/-- Repeat `treeInsert` with the same key and value `m` times, feeding each
result into the next call. -/
def insertRepeat (tree : BTree) (key val : Bytes) (fuel : Nat) :
    Nat → Bytes → GoM Bytes
  | 0, node => pure node
  | m + 1, node => do
    let c ← treeInsert tree key val fuel node
    insertRepeat tree key val fuel m c

/-- Append a list of records left-to-right with `nodeAppendKV`, starting at
slot `i`: the generic builder the claims quantify over. -/
def appendEntries (b : Bytes) : Nat → List Entry → GoM Bytes
  | _, [] => pure b
  | i, e :: rest => do
    let b ← nodeAppendKV b i e.ptr e.key e.val
    appendEntries b (i + 1) rest

/-- Build a whole node in a fresh buffer of size `cap`: header first, then
every record in order. -/
def buildNode (t cap : Nat) (es : List Entry) : GoM Bytes :=
  appendEntries (setHeader (List.replicate cap 0) t (u16 es.length)) 0 es

theorem appendEntries_build {L K t : Nat} :
    ∀ (rest : List Entry) (es : List Entry) (b : Bytes),
    PartialBuild L K t es b →
    (∀ e ∈ rest, entryOk e) →
    es.length + rest.length ≤ K →
    4 + 10 * K + offsTo es es.length + (rest.map entrySize).sum ≤ L →
    4 + 10 * K + offsTo es es.length + (rest.map entrySize).sum < 65536 →
    ∃ c, appendEntries b es.length rest = .ok c ∧
      PartialBuild L K t (es ++ rest) c := by
  intro rest
  induction rest with
  | nil =>
    intro es b hpb heok hle hfit hsz
    exact ⟨b, rfl, by simpa using hpb⟩
  | cons e rest ih =>
    intro es b hpb heok hle hfit hsz
    simp only [List.length_cons] at hle
    simp only [List.map_cons, List.sum_cons] at hfit hsz
    obtain ⟨c1, happ1, hpb1⟩ := nodeAppendKV_build hpb (by omega)
      (heok e (by simp)) (by omega) (by omega)
    obtain ⟨c, happ2, hpb2⟩ := ih (es ++ [e]) c1 hpb1
      (fun x hx => heok x (by simp [hx]))
      (by simp; omega)
      (by rw [List.length_append, List.length_cons, List.length_nil,
            offsTo_concat]
          omega)
      (by rw [List.length_append, List.length_cons, List.length_nil,
            offsTo_concat]
          omega)
    refine ⟨c, ?_, ?_⟩
    · show (do
        let b2 ← nodeAppendKV b es.length e.ptr e.key e.val
        appendEntries b2 (es.length + 1) rest) = .ok c
      rw [happ1, bind_ok_eq,
        show es.length + 1 = (es ++ [e]).length by simp]
      exact happ2
    · rw [List.append_assoc, List.singleton_append] at hpb2
      exact hpb2

/-- A node built from scratch with `buildNode` decodes to its entries. -/
theorem buildNode_decodes {t cap : Nat} {es : List Entry}
    (heok : ∀ e ∈ es, entryOk e) (ht : t < 65536) (hn : es.length < 65536)
    (hfit : 4 + 10 * es.length + (es.map entrySize).sum ≤ cap)
    (hcap : cap < 65536) :
    ∃ b, buildNode t cap es = .ok b ∧ b.length = cap ∧
      Decodes b t es := by
  have hpb0 : PartialBuild cap es.length t []
      (setHeader (List.replicate cap 0) t (u16 es.length)) := by
    rw [u16_eq_of_lt hn]
    exact partialBuild_setHeader (by simp) (by omega) ht hn
  obtain ⟨c, happ, hpb⟩ := appendEntries_build es [] _ hpb0 heok
    (by simp)
    (by simp only [offsTo_nil, List.length_nil]; omega)
    (by simp only [offsTo_nil, List.length_nil]; omega)
  rw [List.nil_append] at hpb
  refine ⟨c, ?_, hpb.hlen, ?_⟩
  · show appendEntries (setHeader (List.replicate cap 0) t (u16 es.length))
      0 es = .ok c
    have h0 : ([] : List Entry).length = 0 := rfl
    rw [← h0]
    exact happ
  · refine partialBuild_decodes hpb rfl ?_ ?_ ?_
    · rw [offsTo_full]
      omega
    · rw [offsTo_full]
      omega
    · exact heok

/-! ### Claim theorems -/

set_option maxRecDepth 100000 in
/-- C1: refuted on the code.  `splitBadNode1` is a well-formed two-record
leaf within the key/value ceilings with `nbytes = 4098 > 4096`, yet
`nodeSplit3` does not return 2 or 3 fitting nodes: it panics inside
`nodeSplit2`, whose `right_bytes` computation subtracts `left_bytes()` from
`old.nkeys()` (instead of `old.nbytes()`), underflows as `uint16`, drives
`nleft` past `nkeys`, and trips the `Assert(nleft < old.nkeys())` check. -/
theorem C1_nodeSplit3_panics :
    nbytes splitBadNode1 = .ok 4098 ∧ BTREE_PAGE_SIZE < 4098 ∧
    nkeys splitBadNode1 = 2 ∧
    readU16 splitBadNode1 24 = 1000 ∧ readU16 splitBadNode1 26 = 3000 ∧
    readU16 splitBadNode1 4028 = 5 ∧ readU16 splitBadNode1 4030 = 61 ∧
    nodeSplit3 splitBadNode1 = .error .assertFailed := by
  decide

set_option maxRecDepth 100000 in
/-- C2: refuted on the code.  On the well-formed oversized two-record leaf
`splitBadNode2` (`nkeys = 2`, `nbytes = 4097 > 4096`, record sizes within
the 1000/3000-byte ceilings), `nodeSplit2` does not terminate with its
assertions intact: the `right_bytes` loop underflows (it uses `nkeys` where
`nbytes` was intended), `nleft` grows to 5 > `nkeys`, and the
`Assert(nleft < old.nkeys())` contract check fires. -/
theorem C2_nodeSplit2_panics :
    nkeys splitBadNode2 = 2 ∧ btype splitBadNode2 = BNODE_LEAF ∧
    nbytes splitBadNode2 = .ok 4097 ∧ BTREE_PAGE_SIZE < 4097 ∧
    readU16 splitBadNode2 24 = 1000 ∧ readU16 splitBadNode2 26 = 3000 ∧
    readU16 splitBadNode2 4028 = 5 ∧ readU16 splitBadNode2 4030 = 60 ∧
    splitRightLoop splitBadNode2 splitFuel 1 = .ok 5 ∧
    nodeSplit2 (List.replicate (2 * BTREE_PAGE_SIZE) 0)
      (List.replicate BTREE_PAGE_SIZE 0) splitBadNode2
      = .error .assertFailed := by
  decide

set_option maxRecDepth 100000 in
/-- C10: refuted on the code for its 2- and 3-way part.  On the well-formed
oversized leaf `splitBadNode3` both `nodeSplit2` and `nodeSplit3` abort with
the `nleft < nkeys` assertion panic (the `right_bytes` underflow bug), so
the code never produces the 2- or 3-way outcomes whose btype and key-count
sums the claim describes; only the unsplit 1-way outcome is reachable. -/
theorem C10_split_panics :
    btype splitBadNode3 = BNODE_LEAF ∧ nbytes splitBadNode3 = .ok 4099 ∧
    BTREE_PAGE_SIZE < 4099 ∧
    nodeSplit3 splitBadNode3 = .error .assertFailed ∧
    nodeSplit2 (List.replicate (2 * BTREE_PAGE_SIZE) 0)
      (List.replicate BTREE_PAGE_SIZE 0) splitBadNode3
      = .error .assertFailed := by
  decide

/-- C9: confirmed.  `treeInsert` on a leaf node holding no keys always
panics: `nodeLookupLE` returns 0 and the following `node.getKey(0)` call
violates the codec's `idx < nkeys` assertion, for every key and value. -/
theorem C9_treeInsert_empty_leaf (tree : BTree) (key val node : Bytes)
    (fuel : Nat) (hleaf : btype node = BNODE_LEAF)
    (hempty : nkeys node = 0) :
    treeInsert tree key val (fuel + 1) node = .error .assertFailed :=
  treeInsert_emptyLeaf hleaf hempty

/-- A concrete empty leaf page and a page store stub for witnesses. -/
def emptyLeafNode : Bytes := [2, 0, 0, 0] ++ List.replicate 4092 0

/-- Page-store callbacks stub used by the witnesses. -/
def unitTree : BTree := ⟨7, fun _ => [], fun b => b.length + 9, fun _ => ()⟩

/-- Witness for C9 at a concrete empty leaf. -/
theorem C9_witness :
    treeInsert unitTree [107] [118] 1 emptyLeafNode = .error .assertFailed :=
  C9_treeInsert_empty_leaf unitTree [107] [118] emptyLeafNode 0
    (by decide) (by decide)

/-- C5: confirmed.  A node built left-to-right by `nodeAppendKV` (and hence
by `nodeAppendRange`) from records within the size ceilings occupies
exactly the header plus records bytes, which stays within the buffer's
declared capacity, and `getKey`/`getVal` return byte-exact round trips of
every record passed in. -/
theorem C5_build_roundtrip {t cap : Nat} {es : List Entry}
    (heok : ∀ e ∈ es, entryCeil e) (ht : t < 65536)
    (hn : es.length < 65536)
    (hfit : 4 + 10 * es.length + (es.map entrySize).sum ≤ cap)
    (hcap : cap < 65536) :
    ∃ b, buildNode t cap es = .ok b ∧ b.length = cap ∧
      nbytes b = .ok (4 + 10 * es.length + (es.map entrySize).sum) ∧
      4 + 10 * es.length + (es.map entrySize).sum ≤ cap ∧
      ∀ i, (h : i < es.length) →
        getKey b i = .ok es[i].key ∧ getVal b i = .ok es[i].val := by
  obtain ⟨b, hb, hlen, hdec⟩ := buildNode_decodes
    (fun e he => entryOk_of_ceil (heok e he)) ht hn hfit hcap
  refine ⟨b, hb, hlen, ?_, hfit, fun i h => ⟨hdec.hkey i h, hdec.hval i h⟩⟩
  rw [decodes_nbytes hdec (by rw [offsTo_full]; omega), totalBytesK,
    offsTo_full]

/-- The three-record leaf of the repository's own tests:
`(k1,v1) (k2,v2) (k3,v3)`. -/
def sampleEs3 : List Entry :=
  [⟨0, [107, 49], [118, 49]⟩, ⟨0, [107, 50], [118, 50]⟩,
   ⟨0, [107, 51], [118, 51]⟩]

/-- Witness for C5 at the test node; its `nbytes` is the test's 58. -/
theorem C5_witness :
    ∃ b, buildNode 2 4096 sampleEs3 = .ok b ∧ b.length = 4096 ∧
      nbytes b = .ok (4 + 10 * sampleEs3.length
        + (sampleEs3.map entrySize).sum) ∧
      4 + 10 * sampleEs3.length + (sampleEs3.map entrySize).sum ≤ 4096 ∧
      ∀ i, (h : i < sampleEs3.length) →
        getKey b i = .ok sampleEs3[i].key ∧ getVal b i = .ok sampleEs3[i].val :=
  C5_build_roundtrip (by decide) (by decide) (by decide) (by decide)
    (by decide)

/-- A sorted two-record leaf `(k1,v1) (k2,v2)` laid out byte-exactly. -/
def sampleLeaf2 : Bytes :=
  [2, 0, 2, 0] ++ List.replicate 16 0 ++ [8, 0, 16, 0] ++
  [2, 0, 2, 0, 107, 49, 118, 49] ++ [2, 0, 2, 0, 107, 50, 118, 50]

/-- A sorted three-record leaf `(k1,v1) (k2,v2) (k3,v3)`, the layout of
`sampleEs3`. -/
def sampleLeaf3 : Bytes :=
  [2, 0, 3, 0] ++ List.replicate 24 0 ++ [8, 0, 16, 0, 24, 0] ++
  [2, 0, 2, 0, 107, 49, 118, 49] ++ [2, 0, 2, 0, 107, 50, 118, 50] ++
  [2, 0, 2, 0, 107, 51, 118, 51]

/-- Counterexample to C3: on a sorted, duplicate-free two-key node a target
strictly below the first key makes `nodeLookupLE` return 1, not the 0 the
claim requires (the `mid == 0` break falls through to `return hi` with
`hi = 1`). -/
theorem C3_counterexample :
    nkeys sampleLeaf2 = 2 ∧
    getKey sampleLeaf2 0 = .ok [107, 49] ∧
    getKey sampleLeaf2 1 = .ok [107, 50] ∧
    compareBytes [107, 49] [107, 50] = .lt ∧
    compareBytes [1] [107, 49] = .lt ∧
    nodeLookupLE sampleLeaf2 [1] = .ok 1 ∧ (1 : Nat) ≠ 0 := by
  decide

/-- C3 as amended: on a sorted, duplicate-free node, `nodeLookupLE` returns
0 on the empty node, returns the largest index whose key is ≤ the target
whenever one exists (hence an exact match returns its own index), and when
every key exceeds the target it returns the leftover search bound, which is
0 or 1 — not always 0 — and is always below `nkeys`. -/
theorem C3_nodeLookupLE_amended {node key : Bytes} {es : List Entry}
    {t : Nat} (hd : Decodes node t es) (hsort : keysSorted es) :
    (es = [] → nodeLookupLE node key = .ok 0) ∧
    (∀ j, (hj : j < es.length) → compareBytes es[j].key key ≠ .gt →
      (∀ m, (hm : m < es.length) → j < m →
        compareBytes es[m].key key = .gt) →
      nodeLookupLE node key = .ok j) ∧
    ((∀ m, (hm : m < es.length) → compareBytes es[m].key key = .gt) →
      es ≠ [] →
      ∃ r, nodeLookupLE node key = .ok r ∧ r ≤ 1 ∧ r < es.length) := by
  refine ⟨?_, ?_, ?_⟩
  · intro hes
    refine nodeLookupLE_empty ?_
    rw [hd.hnk, hes]
    rfl
  · intro j hj hle hgt
    exact nodeLookupLE_found hd hsort hj hle hgt
  · intro hall hne
    exact nodeLookupLE_allgt hd hne hall

/-- Witness for C3's amended statement: on the three-key sample node the
key `k2z`, lying strictly between `k2` and `k3`, yields index 1. -/
theorem C3_witness : nodeLookupLE sampleLeaf3 [107, 50, 122] = .ok 1 :=
  (@C3_nodeLookupLE_amended sampleLeaf3 [107, 50, 122] sampleEs3 BNODE_LEAF
    ⟨by decide, by decide, by decide, by decide, by decide, by decide⟩
    (by decide)).2.1 1 (by decide) (by decide) (by decide)

/-- C4: confirmed.  `leafInsert` produces a leaf with one more entry: the
prefix before `idx` unchanged, the new pair at `idx`, the rest shifted by
one; when the old keys are sorted and duplicate-free and the new key lies
strictly between its neighbours, the result's keys stay sorted and
duplicate-free. -/
theorem C4_leafInsert {told L : Nat} {esOld : List Entry}
    {old newBuf : Bytes} {idx : Nat} {key val : Bytes}
    (hold : Decodes old told esOld) (heok : ∀ e ∈ esOld, entryOk e)
    (hkv : entryCeil ⟨0, key, val⟩) (hidx : idx ≤ esOld.length)
    (hbuf : newBuf.length = L) (hn65 : esOld.length + 1 < 65536)
    (hfit : 4 + 10 * (esOld.length + 1) + ((esOld.map entrySize).sum
      + entrySize ⟨0, key, val⟩) ≤ L)
    (hsz : 4 + 10 * (esOld.length + 1) + ((esOld.map entrySize).sum
      + entrySize ⟨0, key, val⟩) < 65536) :
    ∃ c, leafInsert newBuf old idx key val = .ok c ∧
      nkeys c = esOld.length + 1 ∧
      Decodes c BNODE_LEAF
        (esOld.take idx ++ ⟨0, key, val⟩ :: esOld.drop idx) ∧
      (keysSorted esOld →
        (1 ≤ idx → compareBytes (esOld.getD (idx - 1) dEntry).key key = .lt) →
        (idx < esOld.length →
          compareBytes key (esOld.getD idx dEntry).key = .lt) →
        keysSorted (esOld.take idx ++ ⟨0, key, val⟩ :: esOld.drop idx)) := by
  obtain ⟨c, happ, hdec⟩ := leafInsert_build hold heok
    (entryOk_of_ceil hkv) hidx hbuf hn65 hfit hsz
  refine ⟨c, happ, ?_, hdec, ?_⟩
  · rw [hdec.hnk, List.length_append, List.length_cons, List.length_drop,
      length_take_of_le hidx]
    omega
  · intro hsort hl hr
    exact keysSorted_insert hsort hidx hl hr

/-- Witness for C4 at the test leaf: append `(k4,v4)` at index 3. -/
theorem C4_witness :
    ∃ c, leafInsert (List.replicate 4096 0) sampleLeaf3 3 [107, 52]
        [118, 52] = .ok c ∧
      nkeys c = sampleEs3.length + 1 ∧
      Decodes c BNODE_LEAF
        (sampleEs3.take 3 ++ ⟨0, [107, 52], [118, 52]⟩ :: sampleEs3.drop 3) ∧
      (keysSorted sampleEs3 →
        (1 ≤ 3 → compareBytes (sampleEs3.getD 2 dEntry).key [107, 52] = .lt) →
        (3 < sampleEs3.length →
          compareBytes [107, 52] (sampleEs3.getD 3 dEntry).key = .lt) →
        keysSorted (sampleEs3.take 3 ++ ⟨0, [107, 52], [118, 52]⟩ ::
          sampleEs3.drop 3)) :=
  @C4_leafInsert BNODE_LEAF 4096 sampleEs3 sampleLeaf3
    (List.replicate 4096 0) 3 [107, 52] [118, 52]
    ⟨by decide, by decide, by decide, by decide, by decide, by decide⟩
    (by decide) (by decide) (by decide) (List.length_replicate 4096 0)
    (by decide) (by decide) (by decide)

/-- Entry `i` of a list whose record `idx` was replaced by `e`. -/
theorem updated_getD {es : List Entry} {idx : Nat} {e : Entry}
    (hidx : idx < es.length) {i : Nat} (hi : i < es.length) :
    (es.take idx ++ e :: es.drop (idx + 1)).getD i dEntry =
      if i < idx then es[i] else if i = idx then e else es[i] := by
  have hlt : (es.take idx).length = idx := length_take_of_le (by omega)
  have hlen : (es.take idx ++ e :: es.drop (idx + 1)).length = es.length := by
    rw [List.length_append, hlt, List.length_cons, List.length_drop]
    omega
  rw [getD_entry_eq (by omega)]
  by_cases h1 : i < idx
  · rw [if_pos h1, List.getElem_append_left (by omega), List.getElem_take]
  · rw [if_neg h1]
    rw [List.getElem_append_right (by omega)]
    by_cases h2 : i = idx
    · rw [if_pos h2]
      have h3 : i - (es.take idx).length = 0 := by omega
      simp only [h3, List.getElem_cons_zero]
    · rw [if_neg h2]
      have h3 : i - (es.take idx).length = (i - idx - 1) + 1 := by omega
      simp only [h3, List.getElem_cons_succ, List.getElem_drop]
      have h4 : idx + 1 + (i - idx - 1) = i := by omega
      simp only [h4]

/-- Full specification of `leafUpdate` with the record's own key: key count
kept, exactly the value at `idx` replaced, all other entries unchanged. -/
theorem leafUpdate_spec {told L : Nat} {esOld : List Entry}
    {old newBuf : Bytes} {idx : Nat} {key val : Bytes}
    (hold : Decodes old told esOld) (heok : ∀ e ∈ esOld, entryOk e)
    (hkv : entryCeil ⟨0, key, val⟩) (hidx : idx < esOld.length)
    (hkey : key = (esOld.getD idx dEntry).key)
    (hbuf : newBuf.length = L) (hn65 : esOld.length < 65536)
    (hfit : 4 + 10 * esOld.length + (((esOld.take idx).map entrySize).sum
      + entrySize ⟨0, key, val⟩
      + ((esOld.drop (idx + 1)).map entrySize).sum) ≤ L)
    (hsz : 4 + 10 * esOld.length + (((esOld.take idx).map entrySize).sum
      + entrySize ⟨0, key, val⟩
      + ((esOld.drop (idx + 1)).map entrySize).sum) < 65536) :
    ∃ c, leafUpdate newBuf old idx key val = .ok c ∧
      nkeys c = esOld.length ∧
      getVal c idx = .ok val ∧
      (∀ i, (h : i < esOld.length) → getKey c i = .ok esOld[i].key) ∧
      (∀ i, (h : i < esOld.length) → i ≠ idx →
        getVal c i = .ok esOld[i].val) := by
  obtain ⟨c, happ, hdec⟩ := leafUpdate_build hold heok
    (entryOk_of_ceil hkv) hidx hbuf hn65 hfit hsz
  have hlt : (esOld.take idx).length = idx := length_take_of_le (by omega)
  have hlen : (esOld.take idx ++ (⟨0, key, val⟩ : Entry) ::
      esOld.drop (idx + 1)).length = esOld.length := by
    rw [List.length_append, hlt, List.length_cons, List.length_drop]
    omega
  have hget : ∀ i, (h : i < esOld.length) →
      (esOld.take idx ++ (⟨0, key, val⟩ : Entry) ::
        esOld.drop (idx + 1)).getD i dEntry =
      if i < idx then esOld[i] else if i = idx then ⟨0, key, val⟩
      else esOld[i] := fun i h => updated_getD hidx h
  refine ⟨c, happ, by rw [hdec.hnk, hlen], ?_, ?_, ?_⟩
  · have hv := hdec.hval idx (by omega)
    rw [← getD_entry_eq (show idx < (esOld.take idx ++
        (⟨0, key, val⟩ : Entry) :: esOld.drop (idx + 1)).length by omega)
        dEntry,
      updated_getD hidx (by omega), if_neg (lt_irrefl idx), if_pos rfl] at hv
    exact hv
  · intro i h
    have hk := hdec.hkey i (by omega)
    rw [← getD_entry_eq (show i < (esOld.take idx ++
        (⟨0, key, val⟩ : Entry) :: esOld.drop (idx + 1)).length by omega)
        dEntry,
      updated_getD hidx h] at hk
    by_cases h1 : i < idx
    · rw [if_pos h1] at hk
      exact hk
    · by_cases h2 : i = idx
      · rw [if_neg h1, if_pos h2] at hk
        rw [getD_entry_eq hidx] at hkey
        subst h2
        rw [← hkey]
        exact hk
      · rw [if_neg h1, if_neg h2] at hk
        exact hk
  · intro i h hne
    have hv := hdec.hval i (by omega)
    rw [← getD_entry_eq (show i < (esOld.take idx ++
        (⟨0, key, val⟩ : Entry) :: esOld.drop (idx + 1)).length by omega)
        dEntry,
      updated_getD hidx h] at hv
    by_cases h1 : i < idx
    · rw [if_pos h1] at hv
      exact hv
    · rw [if_neg h1, if_neg hne] at hv
      exact hv

/-- C6: confirmed.  `leafUpdate` with the record's own key keeps the key
count, replaces exactly the value at `idx`, and leaves every other entry's
key and value byte-for-byte unchanged. -/
theorem C6_leafUpdate {told L : Nat} {esOld : List Entry}
    {old newBuf : Bytes} {idx : Nat} {key val : Bytes}
    (hold : Decodes old told esOld) (heok : ∀ e ∈ esOld, entryOk e)
    (hkv : entryCeil ⟨0, key, val⟩) (hidx : idx < esOld.length)
    (hkey : key = (esOld.getD idx dEntry).key)
    (hbuf : newBuf.length = L) (hn65 : esOld.length < 65536)
    (hfit : 4 + 10 * esOld.length + (((esOld.take idx).map entrySize).sum
      + entrySize ⟨0, key, val⟩
      + ((esOld.drop (idx + 1)).map entrySize).sum) ≤ L)
    (hsz : 4 + 10 * esOld.length + (((esOld.take idx).map entrySize).sum
      + entrySize ⟨0, key, val⟩
      + ((esOld.drop (idx + 1)).map entrySize).sum) < 65536) :
    ∃ c, leafUpdate newBuf old idx key val = .ok c ∧
      nkeys c = esOld.length ∧
      getVal c idx = .ok val ∧
      (∀ i, (h : i < esOld.length) → getKey c i = .ok esOld[i].key) ∧
      (∀ i, (h : i < esOld.length) → i ≠ idx →
        getVal c i = .ok esOld[i].val) :=
  leafUpdate_spec hold heok hkv hidx hkey hbuf hn65 hfit hsz

/-- Witness for C6 at the test leaf: update `k2` to `v2n` at index 1. -/
theorem C6_witness :
    ∃ c, leafUpdate (List.replicate 4096 0) sampleLeaf3 1 [107, 50]
        [118, 50, 110] = .ok c ∧
      nkeys c = sampleEs3.length ∧
      getVal c 1 = .ok [118, 50, 110] ∧
      (∀ i, (h : i < sampleEs3.length) → getKey c i = .ok sampleEs3[i].key) ∧
      (∀ i, (h : i < sampleEs3.length) → i ≠ 1 →
        getVal c i = .ok sampleEs3[i].val) :=
  @C6_leafUpdate BNODE_LEAF 4096 sampleEs3 sampleLeaf3
    (List.replicate 4096 0) 1 [107, 50] [118, 50, 110]
    ⟨by decide, by decide, by decide, by decide, by decide, by decide⟩
    (by decide) (by decide) (by decide) (by decide)
    (List.length_replicate 4096 0) (by decide) (by decide) (by decide)

/-- C8: confirmed.  `nodeReplaceKidN` builds an internal node with
`old.nkeys + kids − 1` entries: entries before `idx` unchanged, one entry
per replacement kid whose pointer is the page number obtained from
`tree.new` for that kid, whose key is the kid's own first key, and whose
value is empty, then `old`'s entries after `idx` shifted to follow. -/
theorem C8_nodeReplaceKidN {told L : Nat} {esOld kidE : List Entry}
    {old newBuf : Bytes} {idx : Nat} {tree : BTree} {kids : List Bytes}
    (hold : Decodes old told esOld) (heok : ∀ e ∈ esOld, entryOk e)
    (hkne : kids ≠ []) (hlenE : kidE.length = kids.length)
    (hkids : ∀ m, (hm : m < kids.length) →
      getKey kids[m] 0 = .ok (kidE.getD m dEntry).key ∧
      (kidE.getD m dEntry).ptr = tree.new kids[m] ∧
      (kidE.getD m dEntry).val = [] ∧ entryOk (kidE.getD m dEntry))
    (hidx : idx < esOld.length) (hbuf : newBuf.length = L)
    (hK65 : esOld.length + kids.length < 65536)
    (hfit : 4 + 10 * (esOld.length + kids.length - 1)
      + (((esOld.take idx).map entrySize).sum + (kidE.map entrySize).sum
        + ((esOld.drop (idx + 1)).map entrySize).sum) ≤ L)
    (hsz : 4 + 10 * (esOld.length + kids.length - 1)
      + (((esOld.take idx).map entrySize).sum + (kidE.map entrySize).sum
        + ((esOld.drop (idx + 1)).map entrySize).sum) < 65536) :
    ∃ c, nodeReplaceKidN tree newBuf old idx kids = .ok c ∧
      nkeys c = esOld.length + kids.length - 1 ∧
      Decodes c BNODE_NODE
        (esOld.take idx ++ kidE ++ esOld.drop (idx + 1)) := by
  obtain ⟨c, happ, hdec⟩ := nodeReplaceKidN_build hold heok hkne hlenE hkids
    hidx hbuf hK65 hfit hsz
  refine ⟨c, happ, ?_, hdec⟩
  rw [hdec.hnk, List.length_append, List.length_append,
    length_take_of_le (by omega), hlenE, List.length_drop]
  omega

/-- A two-entry internal node pointing at pages 11 and 12. -/
def sampleNode2 : Bytes :=
  [1, 0, 2, 0] ++ [11, 0, 0, 0, 0, 0, 0, 0] ++ [12, 0, 0, 0, 0, 0, 0, 0] ++
  [5, 0, 10, 0] ++ [1, 0, 0, 0, 97] ++ [1, 0, 0, 0, 109]

/-- Its decoded entries. -/
def sampleNodeEs2 : List Entry := [⟨11, [97], []⟩, ⟨12, [109], []⟩]

/-- Two one-record replacement leaves with first keys `a` and `d`. -/
def kidLeafA : Bytes :=
  [2, 0, 1, 0] ++ List.replicate 8 0 ++ [6, 0] ++ [1, 0, 1, 0, 97, 120]

def kidLeafD : Bytes :=
  [2, 0, 1, 0] ++ List.replicate 8 0 ++ [6, 0] ++ [1, 0, 1, 0, 100, 120]

/-- The separator entries the two kids should contribute under `unitTree`
(whose `new` callback returns `length + 9 = 29` for a 20-byte page). -/
def kidEntries2 : List Entry := [⟨29, [97], []⟩, ⟨29, [100], []⟩]

/-- Witness for C8: replace kid 0 of the sample internal node by the two
leaves; the result has 2 + 2 − 1 = 3 entries. -/
theorem C8_witness :
    ∃ c, nodeReplaceKidN unitTree (List.replicate 8192 0) sampleNode2 0
        [kidLeafA, kidLeafD] = .ok c ∧
      nkeys c = sampleNodeEs2.length + [kidLeafA, kidLeafD].length - 1 ∧
      Decodes c BNODE_NODE
        (sampleNodeEs2.take 0 ++ kidEntries2 ++ sampleNodeEs2.drop 1) :=
  @C8_nodeReplaceKidN BNODE_NODE 8192 sampleNodeEs2 kidEntries2 sampleNode2
    (List.replicate 8192 0) 0 unitTree [kidLeafA, kidLeafD]
    ⟨by decide, by decide, by decide, by decide, by decide, by decide⟩
    (by decide) (by decide) (by decide) (by decide) (by decide)
    (List.length_replicate 8192 0) (by decide) (by decide) (by decide)

/-- Two entry lists with pointwise equal keys are sorted together. -/
theorem keysSorted_congr {es fs : List Entry} (hlen : fs.length = es.length)
    (hkeys : ∀ i, (h : i < es.length) →
      (fs.getD i dEntry).key = (es.getD i dEntry).key)
    (h : keysSorted es) : keysSorted fs := by
  unfold keysSorted at h ⊢
  rw [List.pairwise_iff_get] at h ⊢
  intro a b hab
  have ha2 := a.isLt
  have hb2 := b.isLt
  have hxa : (a : Nat) < es.length := by omega
  have hxb : (b : Nat) < es.length := by omega
  rw [List.get_eq_getElem, List.get_eq_getElem,
    ← getD_entry_eq a.isLt dEntry, ← getD_entry_eq b.isLt dEntry,
    hkeys _ hxa, hkeys _ hxb, getD_entry_eq hxa, getD_entry_eq hxb]
  have hx := h ⟨a, hxa⟩ ⟨b, hxb⟩ (Fin.mk_lt_mk.2 hab)
  rw [List.get_eq_getElem, List.get_eq_getElem] at hx
  exact hx

/-- Splitting the record-size sum around entry `j`. -/
theorem entrySize_sum_split {es : List Entry} {j : Nat} (hj : j < es.length) :
    ((es.take j).map entrySize).sum + entrySize es[j]
      + ((es.drop (j + 1)).map entrySize).sum = (es.map entrySize).sum := by
  conv_rhs => rw [← List.take_append_drop j es]
  rw [List.map_append, List.sum_append, List.drop_eq_getElem_cons hj,
    List.map_cons, List.sum_cons]
  omega

/-- One `treeInsert` on a leaf whose key `j` equals the inserted key: the
call routes through `leafUpdate` and the result decodes to the entries with
record `j` replaced. -/
theorem treeInsert_update_step {tree : BTree} {key val node : Bytes}
    {es : List Entry} {fuel j : Nat}
    (hd : Decodes node BNODE_LEAF es) (hsort : keysSorted es)
    (heok : ∀ e ∈ es, entryOk e) (hkv : entryOk ⟨0, key, val⟩)
    (hj : j < es.length) (hkeyj : es[j].key = key)
    (hn65 : es.length < 65536)
    (hfit : 4 + 10 * es.length + (((es.take j).map entrySize).sum
      + entrySize ⟨0, key, val⟩
      + ((es.drop (j + 1)).map entrySize).sum) ≤ 2 * BTREE_PAGE_SIZE) :
    ∃ c, treeInsert tree key val (fuel + 1) node = .ok c ∧
      Decodes c BNODE_LEAF
        (es.take j ++ ⟨0, key, val⟩ :: es.drop (j + 1)) := by
  have hp : BTREE_PAGE_SIZE = 4096 := rfl
  have hle : compareBytes es[j].key key ≠ .gt := by
    rw [hkeyj, compareBytes_self]
    decide
  have hgt : ∀ m, (hm : m < es.length) → j < m →
      compareBytes es[m].key key = .gt := by
    intro m hm hjm
    rw [compareBytes_gt_iff, ← hkeyj]
    exact keysSorted_lt hsort hjm hm
  have hlk := nodeLookupLE_found hd hsort hj hle hgt
  have hstep := @treeInsert_leaf_step tree key val node (es[j].key) fuel j
    hlk hd.hty (hd.hkey j hj)
  obtain ⟨c, happ, hdec⟩ := leafUpdate_build hd heok hkv hj
    (List.length_replicate (2 * BTREE_PAGE_SIZE) 0) hn65
    hfit (by rw [hp] at hfit; omega)
  refine ⟨c, ?_, hdec⟩
  rw [hstep, if_pos hkeyj.symm]
  exact happ

/-- Once a leaf's record `j` carries exactly the inserted pair, repeated
insertion of the same key and value is a fixed point of the decoded
entries. -/
theorem insertRepeat_fixed {tree : BTree} {key val : Bytes}
    {es1 : List Entry} {j fuel : Nat} (hj : j < es1.length)
    (hsort : keysSorted es1) (heok : ∀ e ∈ es1, entryOk e)
    (hkv : entryOk ⟨0, key, val⟩) (he1 : es1[j] = ⟨0, key, val⟩)
    (hn65 : es1.length < 65536)
    (hfit : 4 + 10 * es1.length + (((es1.take j).map entrySize).sum
      + entrySize ⟨0, key, val⟩
      + ((es1.drop (j + 1)).map entrySize).sum) ≤ 2 * BTREE_PAGE_SIZE) :
    ∀ m node, Decodes node BNODE_LEAF es1 →
    ∃ c, insertRepeat tree key val (fuel + 1) m node = .ok c ∧
      Decodes c BNODE_LEAF es1 := by
  have hid : es1.take j ++ (⟨0, key, val⟩ : Entry) :: es1.drop (j + 1)
      = es1 := by
    rw [← he1, ← List.drop_eq_getElem_cons hj, List.take_append_drop]
  intro m
  induction m with
  | zero =>
    intro node hd
    exact ⟨node, rfl, hd⟩
  | succ m ih =>
    intro node hd
    obtain ⟨c1, happ1, hdec1⟩ := treeInsert_update_step hd hsort heok hkv hj
      (by rw [he1]) hn65 hfit
    rw [hid] at hdec1
    obtain ⟨c, happ2, hdec2⟩ := ih c1 hdec1
    refine ⟨c, ?_, hdec2⟩
    show (do
      let c2 ← treeInsert tree key val (fuel + 1) node
      insertRepeat tree key val (fuel + 1) m c2) = .ok c
    rw [happ1, bind_ok_eq]
    exact happ2

/-- Decidable predicate: index `m` holds a key not above the target. -/
def belowKey (es : List Entry) (key : Bytes) (m : Nat) : Prop :=
  m < es.length ∧ compareBytes (es.getD m dEntry).key key ≠ .gt

instance (es : List Entry) (key : Bytes) : DecidablePred (belowKey es key) :=
  fun m => by
    unfold belowKey
    infer_instance

/-- C7: confirmed.  On a non-empty page-bounded leaf with sorted keys,
inserting a key already present routes through `leafUpdate`: the key count
is preserved, the matched value is replaced, all keys are unchanged, and
repeating the same insertion any number of times keeps the key count fixed
while updating the value each time; an absent key instead routes to
`leafInsert` at `idx + 1` where `idx` is the lookup result. -/
theorem C7_treeInsert_same_key {tree : BTree} {key val node : Bytes}
    {es : List Entry} {fuel : Nat}
    (hd : Decodes node BNODE_LEAF es) (hsort : keysSorted es)
    (heok : ∀ e ∈ es, entryCeil e) (hkv : entryCeil ⟨0, key, val⟩)
    (hfit : 4 + 10 * es.length + (es.map entrySize).sum ≤ BTREE_PAGE_SIZE)
    (hne : es ≠ []) :
    (∀ j, (hj : j < es.length) → es[j].key = key →
      (∃ c, treeInsert tree key val (fuel + 1) node = .ok c ∧
        nkeys c = es.length ∧ getVal c j = .ok val ∧
        (∀ i, (h : i < es.length) → getKey c i = .ok es[i].key)) ∧
      (∀ m, ∃ c, insertRepeat tree key val (fuel + 1) m node = .ok c ∧
        nkeys c = es.length)) ∧
    ((∀ m, (hm : m < es.length) → es[m].key ≠ key) →
      ∃ idx, nodeLookupLE node key = .ok idx ∧ idx < es.length ∧
        treeInsert tree key val (fuel + 1) node =
          leafInsert (List.replicate (2 * BTREE_PAGE_SIZE) 0) node
            (idx + 1) key val) := by
  have hp : BTREE_PAGE_SIZE = 4096 := rfl
  have hmk : BTREE_MAX_KEY_SIZE = 1000 := rfl
  have hmv : BTREE_MAX_VAL_SIZE = 3000 := rfl
  have hn65 : es.length < 65536 := by
    rw [hp] at hfit
    omega
  have heok' : ∀ e ∈ es, entryOk e := fun e he => entryOk_of_ceil (heok e he)
  have hkv' : entryOk ⟨0, key, val⟩ := entryOk_of_ceil hkv
  have hesz : entrySize ⟨0, key, val⟩ = 4 + key.length + val.length := rfl
  have hkl : key.length ≤ 1000 := by
    have := hkv.2.1
    rwa [hmk] at this
  have hvl : val.length ≤ 3000 := by
    have := hkv.2.2
    rwa [hmv] at this
  constructor
  · intro j hj hkeyj
    have hsplit := entrySize_sum_split hj
    have hjsize : 4 ≤ entrySize es[j] := entrySize_ge _
    have hfitJ : 4 + 10 * es.length + (((es.take j).map entrySize).sum
        + entrySize ⟨0, key, val⟩
        + ((es.drop (j + 1)).map entrySize).sum) ≤ 2 * BTREE_PAGE_SIZE := by
      rw [hp] at hfit ⊢
      rw [hesz]
      omega
    constructor
    · have hle : compareBytes es[j].key key ≠ .gt := by
        rw [hkeyj, compareBytes_self]
        decide
      have hgt : ∀ m, (hm : m < es.length) → j < m →
          compareBytes es[m].key key = .gt := by
        intro m hm hjm
        rw [compareBytes_gt_iff, ← hkeyj]
        exact keysSorted_lt hsort hjm hm
      have hlk := nodeLookupLE_found hd hsort hj hle hgt
      have hstep := @treeInsert_leaf_step tree key val node (es[j].key) fuel j
        hlk hd.hty (hd.hkey j hj)
      obtain ⟨c, happ, hnk, hval, hkeys, hvs⟩ := leafUpdate_spec hd heok' hkv
        hj (by rw [getD_entry_eq hj, hkeyj])
        (List.length_replicate (2 * BTREE_PAGE_SIZE) 0) hn65 hfitJ
        (by rw [hp] at hfitJ; omega)
      refine ⟨c, ?_, hnk, hval, hkeys⟩
      rw [hstep, if_pos hkeyj.symm]
      exact happ
    · intro m
      cases m with
      | zero => exact ⟨node, rfl, hd.hnk⟩
      | succ m =>
        obtain ⟨c1, happ1, hdec1⟩ := @treeInsert_update_step tree key val
          node es fuel j hd hsort heok' hkv' hj hkeyj hn65 hfitJ
        set es1 : List Entry :=
          es.take j ++ ⟨0, key, val⟩ :: es.drop (j + 1) with hes1
        have hA : (es.take j).length = j := length_take_of_le (by omega)
        have hlen1 : es1.length = es.length := by
          rw [hes1, List.length_append, hA, List.length_cons,
            List.length_drop]
          omega
        have hget1 : ∀ i, (h : i < es.length) → es1.getD i dEntry =
            if i < j then es[i] else if i = j then ⟨0, key, val⟩
            else es[i] := fun i h => updated_getD hj h
        have hkeys1 : ∀ i, (h : i < es.length) →
            (es1.getD i dEntry).key = (es.getD i dEntry).key := by
          intro i h
          rw [hget1 i h, getD_entry_eq h]
          by_cases h1 : i < j
          · rw [if_pos h1]
          · by_cases h2 : i = j
            · subst h2
              rw [if_neg h1, if_pos rfl]
              exact hkeyj.symm
            · rw [if_neg h1, if_neg h2]
        have hsort1 : keysSorted es1 :=
          keysSorted_congr (by rw [hlen1]) hkeys1 hsort
        have heok1 : ∀ e ∈ es1, entryOk e := by
          intro x hx
          rw [hes1] at hx
          rcases List.mem_append.1 hx with hx1 | hx2
          · exact heok' x (List.mem_of_mem_take hx1)
          · rcases List.mem_cons.1 hx2 with hx3 | hx4
            · rw [hx3]
              exact hkv'
            · exact heok' x (List.mem_of_mem_drop hx4)
        have hj1 : j < es1.length := by omega
        have he1 : es1[j] = ⟨0, key, val⟩ := by
          rw [← getD_entry_eq hj1 dEntry, hget1 j hj,
            if_neg (lt_irrefl j), if_pos rfl]
        have htake1 : es1.take j = es.take j := by
          rw [hes1, List.take_append_of_le_length (by omega),
            List.take_take, Nat.min_self]
        have hdrop1 : es1.drop (j + 1) = es.drop (j + 1) := by
          conv_lhs =>
            rw [hes1,
              show es.take j ++ (⟨0, key, val⟩ : Entry) ::
                  es.drop (j + 1)
                = (es.take j ++ [(⟨0, key, val⟩ : Entry)]) ++
                  es.drop (j + 1) from by simp,
              show j + 1 = (es.take j ++
                [(⟨0, key, val⟩ : Entry)]).length from by simp [hA],
              List.drop_left]
          simp [hA]
        have hfit1 : 4 + 10 * es1.length
            + (((es1.take j).map entrySize).sum
              + entrySize ⟨0, key, val⟩
              + ((es1.drop (j + 1)).map entrySize).sum)
            ≤ 2 * BTREE_PAGE_SIZE := by
          rw [hlen1, htake1, hdrop1]
          exact hfitJ
        obtain ⟨c, happ2, hdec2⟩ := insertRepeat_fixed hj1 hsort1 heok1 hkv'
          he1 (by omega) hfit1 m c1 hdec1
        refine ⟨c, ?_, by rw [hdec2.hnk, hlen1]⟩
        show (do
          let c2 ← treeInsert tree key val (fuel + 1) node
          insertRepeat tree key val (fuel + 1) m c2) = .ok c
        rw [happ1, bind_ok_eq]
        exact happ2
  · intro habs
    by_cases hex : ∃ m0, belowKey es key m0
    · obtain ⟨m0, hm0⟩ := hex
      have hm0lt := hm0.1
      set j := Nat.findGreatest (belowKey es key) (es.length - 1) with hjdef
      have hQj : belowKey es key j :=
        Nat.findGreatest_spec (show m0 ≤ es.length - 1 by omega) hm0
      obtain ⟨hjlt, hjle⟩ := hQj
      rw [getD_entry_eq hjlt] at hjle
      have hgt : ∀ k, (hk : k < es.length) → j < k →
          compareBytes es[k].key key = .gt := by
        intro k hk hjk
        rw [hjdef] at hjk
        have hng : ¬ belowKey es key k :=
          Nat.findGreatest_is_greatest hjk (by omega)
        unfold belowKey at hng
        push_neg at hng
        have h2 := hng hk
        rwa [getD_entry_eq hk] at h2
      have hlk := nodeLookupLE_found hd hsort hjlt hjle hgt
      have hstep := @treeInsert_leaf_step tree key val node (es[j].key) fuel
        j hlk hd.hty (hd.hkey j hjlt)
      refine ⟨j, hlk, hjlt, ?_⟩
      rw [hstep, if_neg fun hc => habs j hjlt hc.symm]
    · push_neg at hex
      have hall : ∀ m, (hm : m < es.length) →
          compareBytes es[m].key key = .gt := by
        intro m hm
        have h2 := hex m
        unfold belowKey at h2
        push_neg at h2
        have h3 := h2 hm
        rwa [getD_entry_eq hm] at h3
      obtain ⟨r, hr, hr1, hr2⟩ := nodeLookupLE_allgt hd hne hall
      have hstep := @treeInsert_leaf_step tree key val node (es[r].key) fuel
        r hr hd.hty (hd.hkey r hr2)
      refine ⟨r, hr, hr2, ?_⟩
      rw [hstep, if_neg fun hc => habs r hr2 hc.symm]

/-- Witness for C7: overwrite `k2` in the test leaf with `v9`. -/
theorem C7_witness :
    (∀ j, (hj : j < sampleEs3.length) → sampleEs3[j].key = [107, 50] →
      (∃ c, treeInsert unitTree [107, 50] [118, 57] 1 sampleLeaf3 = .ok c ∧
        nkeys c = sampleEs3.length ∧ getVal c j = .ok [118, 57] ∧
        (∀ i, (h : i < sampleEs3.length) →
          getKey c i = .ok sampleEs3[i].key)) ∧
      (∀ m, ∃ c, insertRepeat unitTree [107, 50] [118, 57] 1 m sampleLeaf3
          = .ok c ∧ nkeys c = sampleEs3.length)) ∧
    ((∀ m, (hm : m < sampleEs3.length) → sampleEs3[m].key ≠ [107, 50]) →
      ∃ idx, nodeLookupLE sampleLeaf3 [107, 50] = .ok idx ∧
        idx < sampleEs3.length ∧
        treeInsert unitTree [107, 50] [118, 57] 1 sampleLeaf3 =
          leafInsert (List.replicate (2 * BTREE_PAGE_SIZE) 0) sampleLeaf3
            (idx + 1) [107, 50] [118, 57]) :=
  @C7_treeInsert_same_key unitTree [107, 50] [118, 57] sampleLeaf3
    sampleEs3 0
    ⟨by decide, by decide, by decide, by decide, by decide, by decide⟩
    (by decide) (by decide) (by decide) (by decide) (by decide)

end Kvs
